import Mathlib

/-!
Verification development for the chess-ai game-tree search engine
(`engine/search.py`, `engine/eval.py`, `engine/board.py`).

The rules/position provider (the python-chess library wrapped by
`engine/board.py`) is an external collaborator per the system design, so it
is modelled as an abstract structure `Game` supplying legal-move
enumeration, clone-and-apply move application, terminal and check
detection, the side to move, the canonical serialization key, and the
piece lists used by the evaluator.

Scores are IEEE doubles in the source; every score the engine ever
produces is an integer value (material sums, piece-square entries, the
tempo bonus and the mate sentinel are integers, and search only negates,
maximizes and minimizes them), together with the two infinities used as
the initial alpha-beta window.  The type `Score` below therefore models a
score as an integer extended with both infinities; this represents every
float the program manipulates exactly.

Wall-clock time checks (`time.time() - start_time > max_time`) are
modelled by an oracle `timeUp : Nat -> Bool` consulted at the k-th check,
and `random.shuffle` / `random.choice` by oracle functions, so that the
embedding is deterministic given the oracles.
-/

/-- Extended score: an integer value or one of the two infinities used by
`-math.inf` / `math.inf` in the source. -/
inductive Score where
  | negInf : Score
  | fin : Int → Score
  | posInf : Score
deriving DecidableEq, Repr

namespace Score

/-- Comparison `a <= b` on extended scores, as for Python floats. -/
def le : Score → Score → Bool
  | negInf, _ => true
  | _, posInf => true
  | fin a, fin b => decide (a ≤ b)
  | fin _, negInf => false
  | posInf, _ => false

/-- Comparison `a < b` on extended scores. -/
def lt (a b : Score) : Bool := ! le b a

/-- Negation of an extended score (`-x` in the source). -/
def neg : Score → Score
  | negInf => posInf
  | posInf => negInf
  | fin q => fin (-q)

/-- Python `max(a, b)`: returns `a` when `a >= b`, else `b`. -/
def max (a b : Score) : Score := if le b a then a else b

/-- Python `min(a, b)`: returns `a` when `a <= b`, else `b`. -/
def min (a b : Score) : Score := if le a b then a else b

theorem le_refl (a : Score) : le a a = true := by
  cases a <;> simp [le]

theorem le_trans {a b c : Score} (h1 : le a b = true) (h2 : le b c = true) :
    le a c = true := by
  cases a <;> cases b <;> cases c <;> simp_all [le] <;> omega

theorem le_of_not_le {a b : Score} (h : le a b = false) : le b a = true := by
  cases a <;> cases b <;> simp_all [le] <;> omega

theorem lt_le {a b : Score} (h : lt a b = true) : le a b = true := by
  cases a <;> cases b <;> simp_all [lt, le] <;> omega

theorem lt_of_lt_of_le {a b c : Score} (h1 : lt a b = true) (h2 : le b c = true) :
    lt a c = true := by
  cases a <;> cases b <;> cases c <;> simp_all [lt, le] <;> omega

theorem neg_lt_neg (a b : Score) : (neg b).lt (neg a) = a.lt b := by
  cases a <;> cases b <;> simp [neg, lt, le] <;> omega

theorem le_max_left (a b : Score) : le a (max a b) = true := by
  unfold max
  by_cases h : le b a = true
  · simp [h, le_refl]
  · simp only [eq_false_of_ne_true h, if_false]
    exact le_of_not_le (eq_false_of_ne_true h)

theorem max_lt {a b c : Score} (h : le c (max a b) = false) :
    lt a c = true ∧ lt b c = true := by
  unfold max at h
  by_cases hba : le b a = true
  · simp [hba] at h
    refine ⟨by simp [lt, h], ?_⟩
    have := le_of_not_le h
    cases a <;> cases b <;> cases c <;> simp_all [lt, le] <;> omega
  · simp [eq_false_of_ne_true hba] at h
    refine ⟨?_, by simp [lt, h]⟩
    have h1 := le_of_not_le (eq_false_of_ne_true hba)
    have h2 := le_of_not_le h
    cases a <;> cases b <;> cases c <;> simp_all [lt, le] <;> omega

theorem lt_of_not_ge {a b : Score} (h : ¬ le b a = true) : lt a b = true := by
  unfold lt
  rw [eq_false_of_ne_true h]
  rfl

end Score

/-- Piece types of the rules provider (`chess.PAWN` .. `chess.KING`). -/
inductive PieceType where
  | pawn | knight | bishop | rook | queen | king
deriving DecidableEq, Repr

/-- Abstract rules/position provider, the contract the search engine
consumes from `engine/board.py` / python-chess (an external collaborator):
legal-move enumeration, clone-and-apply move application, capture and
terminal detection, game result string, side to move, canonical FEN key,
and per-type piece square lists for the evaluator. -/
structure Game where
  Pos : Type
  Move : Type
  deq : DecidableEq Move
  legalMoves : Pos → List Move
  push : Pos → Move → Pos
  isCapture : Pos → Move → Bool
  isCheckmate : Pos → Bool
  isGameOver : Pos → Bool
  result : Pos → String
  turn : Pos → Bool
  key : Pos → String
  pieces : Pos → PieceType → Bool → List Nat

attribute [instance] Game.deq

/-! ## Evaluator (`engine/eval.py`) -/

/-- Mate sentinel `MATE_SCORE = 100000` from `eval.py`. -/
def MATE_SCORE : Int := 100000

/-- Material values `PIECE_VALUES` from `eval.py` (centipawns). -/
def PIECE_VALUES : PieceType → Int
  | .pawn => 100
  | .knight => 320
  | .bishop => 330
  | .rook => 500
  | .queen => 900
  | .king => 0

/-- Iteration order of the `PIECE_VALUES` dict (insertion order). -/
def PIECE_TYPES : List PieceType :=
  [.pawn, .knight, .bishop, .rook, .queen, .king]

/-- Piece-square table `PAWN_PST` from `eval.py`. -/
def PAWN_PST : List Int :=
  [  0,   0,   0,   0,   0,   0,   0,   0,
    50,  50,  50,  50,  50,  50,  50,  50,
    10,  10,  20,  30,  30,  20,  10,  10,
     5,   5,  10,  25,  25,  10,   5,   5,
     0,   0,   0,  20,  20,   0,   0,   0,
     5,  -5, -10,   0,   0, -10,  -5,   5,
     5,  10,  10, -20, -20,  10,  10,   5,
     0,   0,   0,   0,   0,   0,   0,   0]

/-- Piece-square table `KNIGHT_PST` from `eval.py`. -/
def KNIGHT_PST : List Int :=
  [-50, -40, -30, -30, -30, -30, -40, -50,
   -40, -20,   0,   5,   5,   0, -20, -40,
   -30,   5,  10,  15,  15,  10,   5, -30,
   -30,   0,  15,  20,  20,  15,   0, -30,
   -30,   5,  15,  20,  20,  15,   5, -30,
   -30,   0,  10,  15,  15,  10,   0, -30,
   -40, -20,   0,   0,   0,   0, -20, -40,
   -50, -40, -30, -30, -30, -30, -40, -50]

/-- Piece-square table `BISHOP_PST` from `eval.py`. -/
def BISHOP_PST : List Int :=
  [-20, -10, -10, -10, -10, -10, -10, -20,
   -10,   5,   0,   0,   0,   0,   5, -10,
   -10,  10,  10,  10,  10,  10,  10, -10,
   -10,   0,  10,  10,  10,  10,   0, -10,
   -10,   5,   5,  10,  10,   5,   5, -10,
   -10,   0,   5,  10,  10,   5,   0, -10,
   -10,   0,   0,   0,   0,   0,   0, -10,
   -20, -10, -10, -10, -10, -10, -10, -20]

/-- Piece-square table `ROOK_PST` from `eval.py`. -/
def ROOK_PST : List Int :=
  [  0,   0,   5,  10,  10,   5,   0,   0,
   -10,   0,   0,   0,   0,   0,   0, -10,
   -10,   0,   0,   0,   0,   0,   0, -10,
   -10,   0,   0,   0,   0,   0,   0, -10,
   -10,   0,   0,   0,   0,   0,   0, -10,
   -10,   0,   0,   0,   0,   0,   0, -10,
    10,  10,  10,  10,  10,  10,  10,  10,
     0,   0,   0,   0,   0,   0,   0,   0]

/-- Piece-square table `QUEEN_PST` from `eval.py`. -/
def QUEEN_PST : List Int :=
  [-20, -10, -10,  -5,  -5, -10, -10, -20,
   -10,   0,   5,   0,   0,   0,   0, -10,
   -10,   5,   5,   5,   5,   5,   0, -10,
    -5,   0,   5,   5,   5,   5,   0,  -5,
     0,   0,   5,   5,   5,   5,   0,  -5,
   -10,   5,   5,   5,   5,   5,   0, -10,
   -10,   0,   5,   0,   0,   0,   0, -10,
   -20, -10, -10,  -5,  -5, -10, -10, -20]

/-- Piece-square table `KING_PST_MID` from `eval.py`. -/
def KING_PST_MID : List Int :=
  [-30, -40, -40, -50, -50, -40, -40, -30,
   -30, -40, -40, -50, -50, -40, -40, -30,
   -30, -40, -40, -50, -50, -40, -40, -30,
   -30, -40, -40, -50, -50, -40, -40, -30,
   -20, -30, -30, -40, -40, -30, -30, -20,
   -10, -20, -20, -20, -20, -20, -20, -10,
    20,  20,   0,   0,   0,   0,  20,  20,
    20,  30,  10,   0,   0,  10,  30,  20]

/-- Piece-square table `KING_PST_END` from `eval.py`. -/
def KING_PST_END : List Int :=
  [-50, -40, -30, -20, -20, -30, -40, -50,
   -30, -20, -10,   0,   0, -10, -20, -30,
   -30, -10,  20,  30,  30,  20, -10, -30,
   -30, -10,  30,  40,  40,  30, -10, -30,
   -30, -10,  30,  40,  40,  30, -10, -30,
   -30, -10,  20,  30,  30,  20, -10, -30,
   -30, -30,   0,   0,   0,   0, -30, -30,
   -50, -30, -30, -30, -30, -30, -30, -50]

/-- Vertical mirroring `chess.square_mirror` (square XOR 56). -/
def square_mirror (sq : Nat) : Nat := sq ^^^ 56

/-- Crude endgame detection `_is_endgame` from `eval.py`: endgame when
there are no queens, or exactly one queen and at most one rook. -/
def is_endgame (g : Game) (p : g.Pos) : Bool :=
  let queens := (g.pieces p .queen true).length + (g.pieces p .queen false).length
  let rooks := (g.pieces p .rook true).length + (g.pieces p .rook false).length
  queens == 0 || (queens == 1 && rooks ≤ 1)

/-- Table selection and lookup `_pst_value` from `eval.py`.  For black the
square index is mirrored vertically.  Squares are in `0..63` as in
python-chess; the total-function lookup defaults to 0 outside that range. -/
def pst_value (t : PieceType) (sq : Nat) (color : Bool) (endgame : Bool) : Int :=
  let table :=
    match t with
    | .pawn => PAWN_PST
    | .knight => KNIGHT_PST
    | .bishop => BISHOP_PST
    | .rook => ROOK_PST
    | .queen => QUEEN_PST
    | .king => if endgame then KING_PST_END else KING_PST_MID
  let idx := if color then sq else square_mirror sq
  table.getD idx 0

/-- Static evaluation `evaluate` from `eval.py`.  Positive is better for
White.  If the game is over it returns a constant by result; otherwise it
sums material plus piece-square values over all pieces, White added and
Black subtracted, plus a tempo bonus of 10 for the side to move.  The
float result is integer-valued in every case, so it is an `Int` here. -/
def evaluate (g : Game) (p : g.Pos) : Int :=
  if g.isGameOver p then
    if g.result p = "1-0" then MATE_SCORE
    else if g.result p = "0-1" then -MATE_SCORE
    else 0
  else
    let endgame := is_endgame g p
    let score : Int := PIECE_TYPES.foldl (fun acc t =>
      let acc := (g.pieces p t true).foldl
        (fun a sq => a + PIECE_VALUES t + pst_value t sq true endgame) acc
      (g.pieces p t false).foldl
        (fun a sq => a - PIECE_VALUES t - pst_value t sq false endgame) acc) 0
    if g.turn p then score + 10 else score - 10

/-! ## Transposition table and search state (`engine/search.py`) -/

/-- Bound classification stored in a transposition entry (`NodeType`). -/
inductive NodeType where
  | EXACT | LOWERBOUND | UPPERBOUND
deriving DecidableEq, Repr

/-- Transposition-table entry `TTEntry` from `search.py`. -/
structure TTEntry (M : Type) where
  depth : Nat
  score : Score
  node_type : NodeType
  best_move : Option M
deriving DecidableEq

/-- Lookup in the transposition table (`TRANSPOSITION_TABLE.get(fen_key)`),
the table being modelled as an association list with the most recent
binding first. -/
def ttGet {M : Type} (tt : List (String × TTEntry M)) (k : String) :
    Option (TTEntry M) :=
  (tt.find? (fun kv => kv.1 == k)).map (fun kv => kv.2)

/-- Unconditional overwrite `TRANSPOSITION_TABLE[fen_key] = entry`: the new
binding shadows any earlier one for the same key. -/
def ttPut {M : Type} (tt : List (String × TTEntry M)) (k : String)
    (e : TTEntry M) : List (String × TTEntry M) :=
  (k, e) :: tt

/-- Oracles for the effects the engine consumes: whether a deadline was
given (`max_time is not None`), the outcome of the k-th wall-clock
comparison `time.time() - start_time > max_time`, the permutation chosen
by the k-th `random.shuffle`, and the index drawn by `random.choice`. -/
structure SearchCtx (g : Game) where
  hasDeadline : Bool
  timeUp : Nat → Bool
  shuffle : Nat → List g.Move → List g.Move
  choiceIdx : Nat

/-- Mutable search state threaded through the engine: the count of time
checks made so far, the count of shuffles drawn so far, the process-wide
transposition table, and an instrumentation-only log of the
(alpha, beta) window of every `_negamax` / `_quiescence` invocation (the
log influences nothing and exists to state the window invariant). -/
structure SearchSt (g : Game) where
  tick : Nat
  rand : Nat
  tt : List (String × TTEntry g.Move)
  calls : List (Score × Score)

/-- One evaluation of `max_time is not None and time.time() - start_time >
max_time`: consults the clock oracle at the current tick and advances the
tick; when no deadline was given the clock is not consulted. -/
def timeExpired {g : Game} (ctx : SearchCtx g) (s : SearchSt g) :
    Bool × SearchSt g :=
  if ctx.hasDeadline then (ctx.timeUp s.tick, { s with tick := s.tick + 1 })
  else (false, s)

/-- Instrumentation: record the window a node was entered with. -/
def logCall {g : Game} (alpha beta : Score) (s : SearchSt g) : SearchSt g :=
  { s with calls := (alpha, beta) :: s.calls }

/-- Multiplication `color * v` of a perspective sign and a finite score. -/
def colorMul (c v : Int) : Int := c * v

/-- Uniformly-random selection `random.choice(l)`, modelled by the chosen
oracle index reduced modulo the list length; returns a member whenever the
list is nonempty and `none` exactly on the empty list. -/
def randomChoice {α : Type} (idx : Nat) (l : List α) : Option α :=
  l.get? (idx % l.length)

/-- Move ordering `_order_moves` from `search.py`: the transposition-table
move first (if any), then captures, then quiet moves, the two groups
independently shuffled; moves equal to the TT move are skipped when
partitioning. -/
def order_moves (g : Game) (ctx : SearchCtx g) (p : g.Pos)
    (moves : List g.Move) (tt_move : Option g.Move) (s : SearchSt g) :
    List g.Move × SearchSt g :=
  let captures := moves.filter (fun m => !(tt_move == some m) && g.isCapture p m)
  let quiets := moves.filter (fun m => !(tt_move == some m) && !(g.isCapture p m))
  let captures := ctx.shuffle s.rand captures
  let quiets := ctx.shuffle (s.rand + 1) quiets
  let s := { s with rand := s.rand + 2 }
  match tt_move with
  | some t => (t :: (captures ++ quiets), s)
  | none => (captures ++ quiets, s)

/-- Total number of pieces on the board, derived from the piece lists the
rules provider exposes (the quiescence recursion measure). -/
def pieceCountOf (g : Game) (p : g.Pos) : Nat :=
  (PIECE_TYPES.map (fun t =>
    (g.pieces p t true).length + (g.pieces p t false).length)).sum

/-- Rules-provider fact the termination argument rests on: applying a
legal capturing move strictly decreases the number of pieces. -/
def CaptureDec (g : Game) : Prop :=
  ∀ p m, m ∈ g.legalMoves p → g.isCapture p m = true →
    pieceCountOf g (g.push p m) < pieceCountOf g p

/-! ## Quiescence search (`_quiescence`) -/

/-- Loop body of `_quiescence` over the capture moves, with the recursive
call passed as `f`: clone-and-apply each capture, negate the child's
score, return it on a fail-high (`score >= beta`), otherwise raise alpha
when improved and continue; when the captures are exhausted return alpha.
Propagates `none` (exhausted recursion fuel) unchanged. -/
def qLoopGen (g : Game) (ctx : SearchCtx g)
    (f : g.Pos → Score → Score → Int → SearchSt g → Option (Score × SearchSt g))
    (p : g.Pos) (beta : Score) (color : Int) :
    List g.Move → Score → SearchSt g → Option (Score × SearchSt g)
  | [], alpha, s => some (alpha, s)
  | move :: rest, alpha, s =>
    let child := g.push p move
    match f child beta.neg alpha.neg (-color) s with
    | none => none
    | some (cs, s1) =>
      let score := cs.neg
      if Score.le beta score then some (score, s1)
      else
        let alpha := if alpha.lt score then score else alpha
        qLoopGen g ctx f p beta color rest alpha s1

/-- Quiescence search `_quiescence` from `search.py`: time check, then the
stand-pat baseline `color * evaluate(position)` with an immediate
fail-high return, alpha raised to the stand-pat when higher, and a
capture-only loop.  The source recursion has no explicit depth bound; the
embedding supplies a fuel argument and answers `none` if the fuel runs
out, which never happens when the fuel exceeds the piece count (theorem
`quiescence_isSome_of_fuel`). -/
def quiescence (g : Game) (ctx : SearchCtx g) :
    Nat → g.Pos → Score → Score → Int → SearchSt g → Option (Score × SearchSt g)
  | 0 => fun _ _ _ _ _ => none
  | fuel + 1 => fun p alpha beta color s0 =>
    let s := logCall alpha beta s0
    let (expired, s) := timeExpired ctx s
    if expired then some (Score.fin (colorMul color (evaluate g p)), s)
    else
      let stand_pat := Score.fin (colorMul color (evaluate g p))
      if Score.le beta stand_pat then some (stand_pat, s)
      else
        let alpha := if alpha.lt stand_pat then stand_pat else alpha
        let capture_moves := (g.legalMoves p).filter (fun m => g.isCapture p m)
        if capture_moves.isEmpty then some (stand_pat, s)
        else qLoopGen g ctx (quiescence g ctx fuel) p beta color capture_moves alpha s

/-! ## Negamax (`_negamax`) -/

/-- Loop body of `_negamax` over the ordered moves, with the depth-1
recursive call passed as `f`: clone-and-apply, negate the child's score,
update the running best value and move when improved, raise alpha to the
value, and stop the loop as soon as `alpha >= beta`.  Returns the final
`(value, alpha, best_move, state)`. -/
def nLoopGen (g : Game) (ctx : SearchCtx g)
    (f : g.Pos → Score → Score → Int → SearchSt g → Option (Score × SearchSt g))
    (p : g.Pos) (beta : Score) (color : Int) :
    List g.Move → Score → Score → Option g.Move → SearchSt g →
    Option (Score × Score × Option g.Move × SearchSt g)
  | [], alpha, value, best_move, s => some (value, alpha, best_move, s)
  | move :: rest, alpha, value, best_move, s =>
    let child := g.push p move
    match f child beta.neg alpha.neg (-color) s with
    | none => none
    | some (cs, s1) =>
      let score := cs.neg
      let vb := if value.lt score then (score, some move) else (value, best_move)
      let value := vb.1
      let best_move := vb.2
      let alpha := Score.max alpha value
      if Score.le beta alpha then some (value, alpha, best_move, s1)
      else nLoopGen g ctx f p beta color rest alpha value best_move s1

/-- Ordering hint of a probe result: `entry.best_move if entry else None`. -/
def ttSuggestion {M : Type} (entry? : Option (TTEntry M)) : Option M :=
  match entry? with
  | some e => e.best_move
  | none => none

/-- Body of `_negamax` after the time check and transposition probe:
quiescence at depth 0; mate or stalemate score when no legal move exists
(`-color * MATE_SCORE` for checkmate, `0.0` for stalemate); otherwise the
ordered move loop followed by the bound classification (`UPPERBOUND` when
`value <= alpha` for the post-loop alpha, `LOWERBOUND` when
`value >= beta`, else `EXACT`) and the unconditional store.  `entry?` is
the probe result, consulted here only for its suggested move. -/
def negamaxCore (g : Game) (ctx : SearchCtx g)
    (f : g.Pos → Score → Score → Int → SearchSt g → Option (Score × SearchSt g))
    (depth : Nat) (p : g.Pos) (entry? : Option (TTEntry g.Move))
    (alpha beta : Score) (color : Int) (s : SearchSt g) :
    Option (Score × SearchSt g) :=
  if depth = 0 then
    quiescence g ctx (pieceCountOf g p + 1) p alpha beta color s
  else
    let legal_moves := g.legalMoves p
    if legal_moves.isEmpty then
      if g.isCheckmate p then some (Score.fin (colorMul (-color) MATE_SCORE), s)
      else some (Score.fin 0, s)
    else
      let tt_move := ttSuggestion entry?
      let om := order_moves g ctx p legal_moves tt_move s
      match nLoopGen g ctx f p beta color om.1 alpha Score.negInf none om.2 with
      | none => none
      | some (value, alpha, best_move, s1) =>
        let node_type : NodeType :=
          if value.le alpha then .UPPERBOUND
          else if Score.le beta value then .LOWERBOUND
          else .EXACT
        let s2 := { s1 with tt := ttPut s1.tt (g.key p) ⟨depth, value, node_type, best_move⟩ }
        some (value, s2)

/-- Entry part of `_negamax`: window log (instrumentation), the emergency
time cutoff returning `color * evaluate(position)`, and the transposition
probe — a stored entry of depth at least the requested depth returns its
score directly when `EXACT`, raises alpha when `LOWERBOUND`, lowers beta
when `UPPERBOUND`, and returns the stored score when the tightened window
has `alpha >= beta`; then the rest of the node is `negamaxCore`. -/
def negamaxPre (g : Game) (ctx : SearchCtx g)
    (f : g.Pos → Score → Score → Int → SearchSt g → Option (Score × SearchSt g))
    (depth : Nat) (p : g.Pos) (alpha beta : Score) (color : Int)
    (s0 : SearchSt g) : Option (Score × SearchSt g) :=
  let s := logCall alpha beta s0
  let te := timeExpired ctx s
  let expired := te.1
  let s := te.2
  if expired then some (Score.fin (colorMul color (evaluate g p)), s)
  else
    let fen_key := g.key p
    let entry? := ttGet s.tt fen_key
    match entry? with
    | some entry =>
      if depth ≤ entry.depth then
        match entry.node_type with
        | .EXACT => some (entry.score, s)
        | .LOWERBOUND =>
          let alpha := Score.max alpha entry.score
          if Score.le beta alpha then some (entry.score, s)
          else negamaxCore g ctx f depth p entry? alpha beta color s
        | .UPPERBOUND =>
          let beta := Score.min beta entry.score
          if Score.le beta alpha then some (entry.score, s)
          else negamaxCore g ctx f depth p entry? alpha beta color s
      else negamaxCore g ctx f depth p entry? alpha beta color s
    | none => negamaxCore g ctx f depth p entry? alpha beta color s

/-- Negamax with alpha-beta pruning `_negamax` from `search.py`, by
recursion on the requested depth.  At depth 0 the recursive slot is never
consulted (the node delegates to quiescence before enumerating moves), so
it is filled with a vacuous function. -/
def negamax (g : Game) (ctx : SearchCtx g) :
    Nat → g.Pos → Score → Score → Int → SearchSt g → Option (Score × SearchSt g)
  | 0 => negamaxPre g ctx (fun _ _ _ _ _ => none) 0
  | depth + 1 => negamaxPre g ctx (negamax g ctx depth) (depth + 1)

/-- The recursive slot `negamax` fills at a given depth. -/
def nmRec (g : Game) (ctx : SearchCtx g) :
    Nat → g.Pos → Score → Score → Int → SearchSt g → Option (Score × SearchSt g)
  | 0 => fun _ _ _ _ _ => none
  | depth + 1 => negamax g ctx depth

theorem negamax_eq_pre (g : Game) (ctx : SearchCtx g) (depth : Nat) :
    negamax g ctx depth = negamaxPre g ctx (nmRec g ctx depth) depth := by
  cases depth <;> rfl

/-! ## Root search and iterative deepening (`_negamax_root`, `search_best_move`) -/

/-- Loop body of `_negamax_root` over the ordered root moves: a time check
before each candidate (stopping the loop, keeping what was found),
clone-and-apply, negated recursion at depth-1, best score/move tracking,
alpha raised to the score, and the `alpha >= beta` cutoff. -/
def rLoop (g : Game) (ctx : SearchCtx g) (depth : Nat) (p : g.Pos)
    (beta : Score) (color : Int) :
    List g.Move → Score → Score → Option g.Move → SearchSt g →
    Option (Score × Option g.Move × SearchSt g)
  | [], _, best_score, best_move, s => some (best_score, best_move, s)
  | move :: rest, alpha, best_score, best_move, s =>
    let te := timeExpired ctx s
    if te.1 then some (best_score, best_move, te.2)
    else
      let s := te.2
      let child := g.push p move
      match negamax g ctx (depth - 1) child beta.neg alpha.neg (-color) s with
      | none => none
      | some (cs, s1) =>
        let score := cs.neg
        let vb := if best_score.lt score then (score, some move) else (best_score, best_move)
        let best_score := vb.1
        let best_move := vb.2
        let alpha := Score.max alpha score
        if Score.le beta alpha then some (best_score, best_move, s1)
        else rLoop g ctx depth p beta color rest alpha best_score best_move s1

/-- Root search `_negamax_root` from `search.py`: full window
(`alpha = -inf`, `beta = +inf`); with no legal moves it returns
`(evaluate(board), None)`; otherwise it orders the legal moves (no TT
suggestion at the root) and runs the root loop with the side-to-move
perspective sign. -/
def negamax_root (g : Game) (ctx : SearchCtx g) (depth : Nat) (p : g.Pos)
    (s : SearchSt g) : Option (Score × Option g.Move × SearchSt g) :=
  let alpha := Score.negInf
  let beta := Score.posInf
  let legal_moves := g.legalMoves p
  if legal_moves.isEmpty then some (Score.fin (evaluate g p), none, s)
  else
    let om := order_moves g ctx p legal_moves none s
    let color : Int := if g.turn p then 1 else -1
    rLoop g ctx depth p beta color om.1 alpha Score.negInf none om.2

/-- Iterative-deepening loop of `search_best_move` over the depths
`1..maxDepth`: a time check before each depth (stopping and keeping the
best move of the last completed depth), and the best move/score updated
whenever the root search found a move. -/
def sbmLoop (g : Game) (ctx : SearchCtx g) (p : g.Pos) :
    List Nat → Option g.Move → Score → SearchSt g →
    Option (Option g.Move × Score × SearchSt g)
  | [], best_move, best_score, s => some (best_move, best_score, s)
  | d :: rest, best_move, best_score, s =>
    let te := timeExpired ctx s
    if te.1 then some (best_move, best_score, te.2)
    else
      match negamax_root g ctx d p te.2 with
      | none => none
      | some (score, move, s1) =>
        match move with
        | some m => sbmLoop g ctx p rest (some m) score s1
        | none => sbmLoop g ctx p rest best_move best_score s1

/-- Entry point `search_best_move` from `search.py`: iterative deepening
for depths `1..depth`; if no depth produced a move, fall back to a
uniformly-random legal move, and return `none` exactly when the position
has no legal moves. -/
def search_best_move (g : Game) (ctx : SearchCtx g) (p : g.Pos)
    (depth : Nat) (s : SearchSt g) : Option (Option g.Move × SearchSt g) :=
  let best_score := if g.turn p then Score.negInf else Score.posInf
  match sbmLoop g ctx p (List.range' 1 depth) none best_score s with
  | none => none
  | some (best_move, _, s1) =>
    match best_move with
    | some m => some (some m, s1)
    | none =>
      let legal_moves := g.legalMoves p
      if legal_moves.isEmpty then some (none, s1)
      else some (randomChoice ctx.choiceIdx legal_moves, s1)

/-! ## Object-store model of Board mutation (`engine/board.py`)

The pure embedding above uses clone-and-apply as a pure function, which
cannot even express the frame property that the caller's `Board` object is
left unchanged.  The definitions below re-render the same search code over
an explicit store of `Board` objects: a `Board` reference is an index into
the store, `Board.copy` allocates a fresh cell holding the same position
(`new_board.board = self.board.copy()`), and `Board.push` mutates its own
cell in place (`self.board.push(move)`).  All other `Board` methods only
read their cell. -/

/-- Store of live `Board` objects: `next` is the next fresh reference and
`mem` gives the position currently held by each reference. -/
structure Heap (g : Game) where
  next : Nat
  mem : Nat → g.Pos

/-- Model of `Board.copy`: allocate a fresh object holding the same
position and return its reference. -/
def Heap.copy {g : Game} (h : Heap g) (r : Nat) : Nat × Heap g :=
  (h.next, ⟨h.next + 1, fun i => if i = h.next then h.mem r else h.mem i⟩)

/-- Model of `Board.push(move)`: mutate the referenced object in place. -/
def Heap.pushMove {g : Game} (h : Heap g) (r : Nat) (m : g.Move) : Heap g :=
  ⟨h.next, fun i => if i = r then g.push (h.mem i) m else h.mem i⟩

/-- Frame relation between an input store and an output store: no object
alive on entry has been mutated (new objects may have been allocated). -/
def HeapFrame (g : Game) (h h' : Heap g) : Prop :=
  h.next ≤ h'.next ∧ ∀ i, i < h.next → h'.mem i = h.mem i

/-- Loop body of `_quiescence` over the store: `child = board.copy()`
then `child.push(move)`, recursion on the child reference. -/
def qLoopRef (g : Game) (ctx : SearchCtx g)
    (f : Nat → Score → Score → Int → Heap g → SearchSt g →
      Option (Score × Heap g × SearchSt g))
    (r : Nat) (beta : Score) (color : Int) :
    List g.Move → Score → Heap g → SearchSt g →
    Option (Score × Heap g × SearchSt g)
  | [], alpha, h, s => some (alpha, h, s)
  | move :: rest, alpha, h, s =>
    let ch := h.copy r
    let child := ch.1
    let h1 := Heap.pushMove ch.2 child move
    match f child beta.neg alpha.neg (-color) h1 s with
    | none => none
    | some (cs, h2, s1) =>
      let score := cs.neg
      if Score.le beta score then some (score, h2, s1)
      else
        let alpha := if alpha.lt score then score else alpha
        qLoopRef g ctx f r beta color rest alpha h2 s1

/-- Quiescence search `_quiescence` over the store; it reads its board
through the store and mutates only fresh clones. -/
def quiescenceRef (g : Game) (ctx : SearchCtx g) :
    Nat → Nat → Score → Score → Int → Heap g → SearchSt g →
    Option (Score × Heap g × SearchSt g)
  | 0 => fun _ _ _ _ _ _ => none
  | fuel + 1 => fun r alpha beta color h s0 =>
    let te := timeExpired ctx s0
    if te.1 then some (Score.fin (colorMul color (evaluate g (h.mem r))), h, te.2)
    else
      let s := te.2
      let stand_pat := Score.fin (colorMul color (evaluate g (h.mem r)))
      if Score.le beta stand_pat then some (stand_pat, h, s)
      else
        let alpha := if alpha.lt stand_pat then stand_pat else alpha
        let capture_moves :=
          (g.legalMoves (h.mem r)).filter (fun m => g.isCapture (h.mem r) m)
        if capture_moves.isEmpty then some (stand_pat, h, s)
        else qLoopRef g ctx (quiescenceRef g ctx fuel) r beta color
          capture_moves alpha h s

/-- Loop body of `_negamax` over the store. -/
def nLoopRef (g : Game) (ctx : SearchCtx g)
    (f : Nat → Score → Score → Int → Heap g → SearchSt g →
      Option (Score × Heap g × SearchSt g))
    (r : Nat) (beta : Score) (color : Int) :
    List g.Move → Score → Score → Option g.Move → Heap g → SearchSt g →
    Option (Score × Score × Option g.Move × Heap g × SearchSt g)
  | [], alpha, value, best_move, h, s => some (value, alpha, best_move, h, s)
  | move :: rest, alpha, value, best_move, h, s =>
    let ch := h.copy r
    let child := ch.1
    let h1 := Heap.pushMove ch.2 child move
    match f child beta.neg alpha.neg (-color) h1 s with
    | none => none
    | some (cs, h2, s1) =>
      let score := cs.neg
      let vb := if value.lt score then (score, some move) else (value, best_move)
      let value := vb.1
      let best_move := vb.2
      let alpha := Score.max alpha value
      if Score.le beta alpha then some (value, alpha, best_move, h2, s1)
      else nLoopRef g ctx f r beta color rest alpha value best_move h2 s1

/-- Body of `_negamax` after the probe, over the store. -/
def negamaxCoreRef (g : Game) (ctx : SearchCtx g)
    (f : Nat → Score → Score → Int → Heap g → SearchSt g →
      Option (Score × Heap g × SearchSt g))
    (depth : Nat) (r : Nat) (fen_key : String) (entry? : Option (TTEntry g.Move))
    (alpha beta : Score) (color : Int) (h : Heap g) (s : SearchSt g) :
    Option (Score × Heap g × SearchSt g) :=
  if depth = 0 then
    quiescenceRef g ctx (pieceCountOf g (h.mem r) + 1) r alpha beta color h s
  else
    let legal_moves := g.legalMoves (h.mem r)
    if legal_moves.isEmpty then
      if g.isCheckmate (h.mem r) then
        some (Score.fin (colorMul (-color) MATE_SCORE), h, s)
      else some (Score.fin 0, h, s)
    else
      let tt_move := ttSuggestion entry?
      let om := order_moves g ctx (h.mem r) legal_moves tt_move s
      match nLoopRef g ctx f r beta color om.1 alpha Score.negInf none h om.2 with
      | none => none
      | some (value, alpha, best_move, h1, s1) =>
        let node_type : NodeType :=
          if value.le alpha then .UPPERBOUND
          else if Score.le beta value then .LOWERBOUND
          else .EXACT
        let s2 := { s1 with
          tt := ttPut s1.tt fen_key ⟨depth, value, node_type, best_move⟩ }
        some (value, h1, s2)

/-- Entry part of `_negamax` (time check and transposition probe) over
the store. -/
def negamaxPreRef (g : Game) (ctx : SearchCtx g)
    (f : Nat → Score → Score → Int → Heap g → SearchSt g →
      Option (Score × Heap g × SearchSt g))
    (depth : Nat) (r : Nat) (alpha beta : Score) (color : Int)
    (h : Heap g) (s0 : SearchSt g) : Option (Score × Heap g × SearchSt g) :=
  let te := timeExpired ctx s0
  if te.1 then some (Score.fin (colorMul color (evaluate g (h.mem r))), h, te.2)
  else
    let s := te.2
    let fen_key := g.key (h.mem r)
    let entry? := ttGet s.tt fen_key
    match entry? with
    | some entry =>
      if depth ≤ entry.depth then
        match entry.node_type with
        | .EXACT => some (entry.score, h, s)
        | .LOWERBOUND =>
          let alpha := Score.max alpha entry.score
          if Score.le beta alpha then some (entry.score, h, s)
          else negamaxCoreRef g ctx f depth r fen_key entry? alpha beta color h s
        | .UPPERBOUND =>
          let beta := Score.min beta entry.score
          if Score.le beta alpha then some (entry.score, h, s)
          else negamaxCoreRef g ctx f depth r fen_key entry? alpha beta color h s
      else negamaxCoreRef g ctx f depth r fen_key entry? alpha beta color h s
    | none => negamaxCoreRef g ctx f depth r fen_key entry? alpha beta color h s

/-- Negamax `_negamax` over the store. -/
def negamaxRef (g : Game) (ctx : SearchCtx g) :
    Nat → Nat → Score → Score → Int → Heap g → SearchSt g →
    Option (Score × Heap g × SearchSt g)
  | 0 => negamaxPreRef g ctx (fun _ _ _ _ _ _ => none) 0
  | depth + 1 => negamaxPreRef g ctx (negamaxRef g ctx depth) (depth + 1)

/-- Root loop of `_negamax_root` over the store. -/
def rLoopRef (g : Game) (ctx : SearchCtx g) (depth : Nat) (r : Nat)
    (beta : Score) (color : Int) :
    List g.Move → Score → Score → Option g.Move → Heap g → SearchSt g →
    Option (Score × Option g.Move × Heap g × SearchSt g)
  | [], _, best_score, best_move, h, s => some (best_score, best_move, h, s)
  | move :: rest, alpha, best_score, best_move, h, s =>
    let te := timeExpired ctx s
    if te.1 then some (best_score, best_move, h, te.2)
    else
      let s := te.2
      let ch := h.copy r
      let child := ch.1
      let h1 := Heap.pushMove ch.2 child move
      match negamaxRef g ctx (depth - 1) child beta.neg alpha.neg (-color) h1 s with
      | none => none
      | some (cs, h2, s1) =>
        let score := cs.neg
        let vb := if best_score.lt score then (score, some move)
          else (best_score, best_move)
        let best_score := vb.1
        let best_move := vb.2
        let alpha := Score.max alpha score
        if Score.le beta alpha then some (best_score, best_move, h2, s1)
        else rLoopRef g ctx depth r beta color rest alpha best_score best_move h2 s1

/-- Root search `_negamax_root` over the store. -/
def negamax_rootRef (g : Game) (ctx : SearchCtx g) (depth : Nat) (r : Nat)
    (h : Heap g) (s : SearchSt g) :
    Option (Score × Option g.Move × Heap g × SearchSt g) :=
  let legal_moves := g.legalMoves (h.mem r)
  if legal_moves.isEmpty then some (Score.fin (evaluate g (h.mem r)), none, h, s)
  else
    let om := order_moves g ctx (h.mem r) legal_moves none s
    let color : Int := if g.turn (h.mem r) then 1 else -1
    rLoopRef g ctx depth r Score.posInf color om.1 Score.negInf Score.negInf none h om.2

/-- Iterative-deepening loop of `search_best_move` over the store. -/
def sbmLoopRef (g : Game) (ctx : SearchCtx g) (r : Nat) :
    List Nat → Option g.Move → Score → Heap g → SearchSt g →
    Option (Option g.Move × Score × Heap g × SearchSt g)
  | [], best_move, best_score, h, s => some (best_move, best_score, h, s)
  | d :: rest, best_move, best_score, h, s =>
    let te := timeExpired ctx s
    if te.1 then some (best_move, best_score, h, te.2)
    else
      match negamax_rootRef g ctx d r h te.2 with
      | none => none
      | some (score, move, h1, s1) =>
        match move with
        | some m => sbmLoopRef g ctx r rest (some m) score h1 s1
        | none => sbmLoopRef g ctx r rest best_move best_score h1 s1

/-- Entry point `search_best_move` over the store. -/
def search_best_move_ref (g : Game) (ctx : SearchCtx g) (r : Nat)
    (depth : Nat) (h : Heap g) (s : SearchSt g) :
    Option (Option g.Move × Heap g × SearchSt g) :=
  let best_score := if g.turn (h.mem r) then Score.negInf else Score.posInf
  match sbmLoopRef g ctx r (List.range' 1 depth) none best_score h s with
  | none => none
  | some (best_move, _, h1, s1) =>
    match best_move with
    | some m => some (some m, h1, s1)
    | none =>
      let legal_moves := g.legalMoves (h1.mem r)
      if legal_moves.isEmpty then some (none, h1, s1)
      else some (randomChoice ctx.choiceIdx legal_moves, h1, s1)

/-! ## Concrete rules-provider instances used in witnesses and
counterexamples -/

/-- Oracle bundle with no deadline, identity shuffles and choice index 0. -/
def ctxId (g : Game) : SearchCtx g :=
  ⟨false, fun _ => false, fun _ l => l, 0⟩

/-- Fresh search state: tick 0, no shuffles drawn, empty table, empty log. -/
def stEmpty (g : Game) : SearchSt g :=
  ⟨0, 0, [], []⟩

/-- Three-position game: position 0 has the two quiet moves 0 and 1
leading to positions 1 and 2; positions 1 and 2 are childless non-terminal
positions holding a white pawn on square 0 (static score 110) and a white
knight on square 0 (static score 280) respectively. -/
def G3 : Game where
  Pos := Fin 3
  Move := Fin 2
  deq := inferInstance
  legalMoves := fun p => if p = 0 then [0, 1] else []
  push := fun p m => if p = 0 then (if m = 0 then 1 else 2) else p
  isCapture := fun _ _ => false
  isCheckmate := fun _ => false
  isGameOver := fun _ => false
  result := fun _ => "*"
  turn := fun _ => true
  key := fun p => if p = 0 then "a" else if p = 1 then "b" else "c"
  pieces := fun p t c =>
    if p = 1 ∧ t = .pawn ∧ c = true then [0]
    else if p = 2 ∧ t = .knight ∧ c = true then [0]
    else []

/-- One-position game whose only position is checkmate (side to move has
no legal moves and is in check; White delivered the mate). -/
def G2 : Game where
  Pos := Fin 1
  Move := Fin 1
  deq := inferInstance
  legalMoves := fun _ => []
  push := fun p _ => p
  isCapture := fun _ _ => false
  isCheckmate := fun _ => true
  isGameOver := fun _ => true
  result := fun _ => "1-0"
  turn := fun _ => false
  key := fun _ => "m"
  pieces := fun _ _ _ => []


/-! ## Claim C7: evaluator on terminal positions -/

/-- C7: for every terminal position, `evaluate` returns exactly
`+MATE_SCORE` for a White win, `-MATE_SCORE` for a Black win, and `0.0`
otherwise (draw), independent of the material on the board: the value is
determined by the game result alone. -/
theorem C7_evaluate_terminal (g : Game) (p : g.Pos)
    (h : g.isGameOver p = true) :
    evaluate g p =
      if g.result p = "1-0" then MATE_SCORE
      else if g.result p = "0-1" then -MATE_SCORE
      else 0 := by
  unfold evaluate
  simp [h]

/-- Witness for C7 on the concrete terminal game `G2` (result "1-0"). -/
theorem C7_evaluate_terminal_witness :
    G2.isGameOver (0 : Fin 1) = true ∧ evaluate G2 (0 : Fin 1) = MATE_SCORE := by
  refine ⟨rfl, ?_⟩
  rw [C7_evaluate_terminal G2 (0 : Fin 1) rfl]
  decide

/-! ## Claim C2: mate score sign -/

/-- C2 (code bug): a checkmated node entered with perspective `-1` (the
mated side to move).  `_negamax` returns `-perspective * MATE_SCORE`,
which here is `+MATE_SCORE` — the best possible score for the mover under
the negamax convention — instead of the catastrophic `-MATE_SCORE` that
the claim (and the code's own comment "From perspective of side to move:
mate is bad") requires; a parent negating this score sees delivering mate
as the worst outcome, not the best. -/
theorem C2_mate_sign_bug :
    (negamax G2 (ctxId G2) 1 (0 : Fin 1) Score.negInf Score.posInf (-1)
      (stEmpty G2)).map Prod.fst = some (Score.fin MATE_SCORE) ∧
    Score.fin MATE_SCORE ≠ Score.fin (-MATE_SCORE) := by decide

/-! ## Claim C3: transposition bound classification -/

/-- Result of a depth-1 `_negamax` call in `G3` with window (0, 50) whose
move loop fails high: the first child already scores 110 >= beta = 50. -/
def C3run : Score × SearchSt G3 :=
  (negamax G3 (ctxId G3) 1 (0 : Fin 3) (Score.fin 0) (Score.fin 50) 1
    (stEmpty G3)).getD (Score.fin 0, stEmpty G3)

/-- C3 (code bug): the node fails high — the final value 110 is at least
beta = 50 and strictly exceeds the original alpha = 0 — so the claimed
classification requires a LOWERBOUND entry, yet the stored entry is
UPPERBOUND: the source compares the value against the loop-updated alpha
(which is always at least the value once the loop has run) instead of the
window's original alpha, so the stored bound is always UPPERBOUND. -/
theorem C3_bound_always_upper :
    C3run.1 = Score.fin 110 ∧
    ttGet C3run.2.tt (G3.key (0 : Fin 3)) =
      some ⟨1, Score.fin 110, NodeType.UPPERBOUND, some (0 : Fin 2)⟩ ∧
    Score.le (Score.fin 50) (Score.fin 110) = true ∧
    Score.lt (Score.fin 0) (Score.fin 110) = true := by decide

/-! ## Claim C5: transposition probe -/

/-- State of a node after its window log and one time check, the state in
which `_negamax` probes the table and runs its body. -/
def tickLog {g : Game} (ctx : SearchCtx g) (alpha beta : Score)
    (s : SearchSt g) : SearchSt g :=
  (timeExpired ctx (logCall alpha beta s)).2

theorem tickLog_tt {g : Game} (ctx : SearchCtx g) (alpha beta : Score)
    (s : SearchSt g) : (tickLog ctx alpha beta s).tt = s.tt := by
  unfold tickLog timeExpired logCall
  split <;> rfl

/-- C5 (amended): the transposition probe of `_negamax`, the deadline not
having passed and the table holding an entry `e` for the node's key.  If
`e.depth` is at least the requested depth: an EXACT entry's score is
returned directly; a LOWERBOUND entry only raises alpha to
`max(alpha, score)` and an UPPERBOUND entry only lowers beta to
`min(beta, score)`, the stored score being returned without further
search exactly when the tightened window satisfies `alpha >= beta`.  An
entry of insufficient depth leaves the window untouched and causes no
early return: the node proceeds to `negamaxCore` with the original
window.  (The entry still supplies the move-ordering hint to the core in
both cases, which `C5_counterexample` shows can change the node's
result, refuting the original claim's "no effect" clause.) -/
theorem C5_tt_probe (g : Game) (ctx : SearchCtx g) (depth : Nat)
    (p : g.Pos) (alpha beta : Score) (color : Int) (s0 : SearchSt g)
    (e : TTEntry g.Move)
    (hTime : (timeExpired ctx (logCall alpha beta s0)).1 = false)
    (hGet : ttGet s0.tt (g.key p) = some e) :
    (depth ≤ e.depth → e.node_type = NodeType.EXACT →
      negamax g ctx depth p alpha beta color s0 =
        some (e.score, tickLog ctx alpha beta s0)) ∧
    (depth ≤ e.depth → e.node_type = NodeType.LOWERBOUND →
      negamax g ctx depth p alpha beta color s0 =
        if Score.le beta (Score.max alpha e.score) then
          some (e.score, tickLog ctx alpha beta s0)
        else negamaxCore g ctx (nmRec g ctx depth) depth p (some e)
          (Score.max alpha e.score) beta color (tickLog ctx alpha beta s0)) ∧
    (depth ≤ e.depth → e.node_type = NodeType.UPPERBOUND →
      negamax g ctx depth p alpha beta color s0 =
        if Score.le (Score.min beta e.score) alpha then
          some (e.score, tickLog ctx alpha beta s0)
        else negamaxCore g ctx (nmRec g ctx depth) depth p (some e)
          alpha (Score.min beta e.score) color (tickLog ctx alpha beta s0)) ∧
    (¬ depth ≤ e.depth →
      negamax g ctx depth p alpha beta color s0 =
        negamaxCore g ctx (nmRec g ctx depth) depth p (some e)
          alpha beta color (tickLog ctx alpha beta s0)) := by
  have htt : (timeExpired ctx (logCall alpha beta s0)).2.tt = s0.tt :=
    tickLog_tt ctx alpha beta s0
  rw [negamax_eq_pre]
  unfold negamaxPre tickLog
  refine ⟨?_, ?_, ?_, ?_⟩
  · intro hd hx
    simp [hTime, htt, hGet, hd, hx]
  · intro hd hx
    simp [hTime, htt, hGet, hd, hx]
  · intro hd hx
    simp [hTime, htt, hGet, hd, hx]
  · intro hd
    simp [hTime, htt, hGet, hd]

/-- Table state holding a sufficient-depth EXACT entry for `G3`'s root. -/
def stC5w : SearchSt G3 :=
  ⟨0, 0, [("a", ⟨2, Score.fin 7, NodeType.EXACT, none⟩)], []⟩

/-- Witness for C5 applied to a sufficient-depth EXACT entry. -/
theorem C5_tt_probe_witness :
    negamax G3 (ctxId G3) 1 (0 : Fin 3) (Score.fin 0) (Score.fin 50) 1 stC5w =
      some (Score.fin 7, tickLog (ctxId G3) (Score.fin 0) (Score.fin 50) stC5w) :=
  (C5_tt_probe G3 (ctxId G3) 1 (0 : Fin 3) (Score.fin 0) (Score.fin 50) 1 stC5w
    ⟨2, Score.fin 7, NodeType.EXACT, none⟩ (by decide) (by decide)).1
    (by decide) rfl

/-- C5 (counterexample): two identical `_negamax` calls (depth 1, window
(0, 50), perspective 1) that differ only in whether the table holds an
entry for the node's key of insufficient depth (0 < 1).  Without it the
node returns 110; with it the entry's suggested move is ordered first and
the fail-soft cutoff returns 280: a cached entry of insufficient depth
changed the node's result, contrary to the claim. -/
theorem C5_counterexample :
    (negamax G3 (ctxId G3) 1 (0 : Fin 3) (Score.fin 0) (Score.fin 50) 1
      (stEmpty G3)).map Prod.fst = some (Score.fin 110) ∧
    (negamax G3 (ctxId G3) 1 (0 : Fin 3) (Score.fin 0) (Score.fin 50) 1
      ⟨0, 0, [("a", ⟨0, Score.fin 0, NodeType.EXACT, some (1 : Fin 2)⟩)], []⟩).map
      Prod.fst = some (Score.fin 280) ∧
    ¬ (1 : Nat) ≤ (0 : Nat) := by decide

/-! ## Helper lemmas about the search state -/

theorem timeExpired_fst {g : Game} (ctx : SearchCtx g) (s : SearchSt g) :
    (timeExpired ctx s).1 = (ctx.hasDeadline && ctx.timeUp s.tick) := by
  unfold timeExpired
  split <;> simp_all

/-! ## Claim C8: quiescence termination -/

theorem qLoopGen_isSome {g : Game} (ctx : SearchCtx g)
    (f : g.Pos → Score → Score → Int → SearchSt g → Option (Score × SearchSt g))
    (p : g.Pos) (beta : Score) (color : Int) :
    ∀ ms : List g.Move,
      (∀ m ∈ ms, ∀ (a : Score) (s : SearchSt g),
        (f (g.push p m) beta.neg a (-color) s).isSome = true) →
      ∀ (alpha : Score) (s : SearchSt g),
        (qLoopGen g ctx f p beta color ms alpha s).isSome = true := by
  intro ms
  induction ms with
  | nil => intro _ alpha s; simp [qLoopGen]
  | cons m rest ih =>
    intro hf alpha s
    unfold qLoopGen
    have h1 := hf m (by simp) alpha.neg s
    cases hfm : f (g.push p m) beta.neg alpha.neg (-color) s with
    | none => rw [hfm] at h1; simp at h1
    | some res =>
      obtain ⟨cs, s1⟩ := res
      simp only [hfm]
      by_cases hb : Score.le beta cs.neg = true
      · simp [hb]
      · simp only [eq_false_of_ne_true hb, Bool.false_eq_true, if_false]
        exact ih (fun m' hm' => hf m' (List.mem_cons_of_mem _ hm')) _ s1

/-- Fuel sufficiency for `_quiescence`: when every legal capture strictly
decreases the piece count, fuel exceeding the piece count is never
exhausted — the source recursion, which has no explicit depth limit, is
well-founded with the number of pieces as measure. -/
theorem quiescence_isSome_of_fuel {g : Game} (ctx : SearchCtx g)
    (hcap : CaptureDec g) :
    ∀ (fuel : Nat) (p : g.Pos) (alpha beta : Score) (color : Int)
      (s : SearchSt g), pieceCountOf g p < fuel →
      (quiescence g ctx fuel p alpha beta color s).isSome = true := by
  intro fuel
  induction fuel with
  | zero => intro p _ _ _ _ hf; omega
  | succ n ih =>
    intro p alpha beta color s hf
    unfold quiescence
    by_cases hexp : (timeExpired ctx (logCall alpha beta s)).1 = true
    · simp [hexp]
    · simp only [eq_false_of_ne_true hexp, Bool.false_eq_true, if_false]
      by_cases hb : Score.le beta (Score.fin (colorMul color (evaluate g p))) = true
      · simp [hb]
      · simp only [eq_false_of_ne_true hb, Bool.false_eq_true, if_false]
        by_cases hc :
            ((g.legalMoves p).filter (fun m => g.isCapture p m)).isEmpty = true
        · simp [hc]
        · simp only [hc, Bool.false_eq_true, if_false]
          apply qLoopGen_isSome
          intro m hm a s'
          have hm' := List.mem_filter.mp hm
          exact ih (g.push p m) _ _ _ _
            (Nat.lt_of_lt_of_le (hcap p m hm'.1 hm'.2) (Nat.lt_succ_iff.mp hf))

/-- C8: `_quiescence` terminates on every position without an explicit
depth limit — each recursive call applies a capturing legal move to a
clone, which strictly decreases the piece count, so fuel bounded by the
number of pieces is never exhausted and the embedded search always
returns a value. -/
theorem C8_quiescence_terminates (g : Game) (ctx : SearchCtx g)
    (hcap : CaptureDec g) (fuel : Nat) (p : g.Pos) (alpha beta : Score)
    (color : Int) (s : SearchSt g) (hfuel : pieceCountOf g p < fuel) :
    (quiescence g ctx fuel p alpha beta color s).isSome = true :=
  quiescence_isSome_of_fuel ctx hcap fuel p alpha beta color s hfuel

theorem capture_dec_G3 : CaptureDec G3 := by
  intro p m _ hc
  simp [G3] at hc

theorem C8_quiescence_terminates_witness :
    pieceCountOf G3 (0 : Fin 3) < 1 ∧
    (quiescence G3 (ctxId G3) 1 (0 : Fin 3) Score.negInf Score.posInf 1
      (stEmpty G3)).isSome = true :=
  ⟨by decide, C8_quiescence_terminates G3 (ctxId G3) capture_dec_G3 1 (0 : Fin 3)
    Score.negInf Score.posInf 1 (stEmpty G3) (by decide)⟩

/-! ## Claim C10: quiescence never returns below the stand-pat value -/

theorem qLoopGen_ge {g : Game} (ctx : SearchCtx g)
    (f : g.Pos → Score → Score → Int → SearchSt g → Option (Score × SearchSt g))
    (p : g.Pos) (beta : Score) (color : Int) :
    ∀ (ms : List g.Move) (alpha : Score) (s : SearchSt g) (v : Score)
      (s' : SearchSt g),
      qLoopGen g ctx f p beta color ms alpha s = some (v, s') →
      Score.le alpha v = true ∨ Score.le beta v = true := by
  intro ms
  induction ms with
  | nil =>
    intro alpha s v s' h
    unfold qLoopGen at h
    simp only [Option.some.injEq, Prod.mk.injEq] at h
    exact Or.inl (h.1 ▸ Score.le_refl alpha)
  | cons m rest ih =>
    intro alpha s v s' h
    unfold qLoopGen at h
    cases hfm : f (g.push p m) beta.neg alpha.neg (-color) s with
    | none => simp [hfm] at h
    | some res =>
      obtain ⟨cs, s1⟩ := res
      simp only [hfm] at h
      by_cases hb : Score.le beta cs.neg = true
      · simp only [hb, if_true, Option.some.injEq, Prod.mk.injEq] at h
        exact Or.inr (h.1 ▸ hb)
      · simp only [eq_false_of_ne_true hb, Bool.false_eq_true, if_false] at h
        rcases ih _ s1 v s' h with hle | hle
        · left
          by_cases hlt : alpha.lt cs.neg = true
        -- alpha was raised to the child's score or kept; either way it
        -- only grew, so the result still dominates the original alpha
          · simp only [hlt, if_true] at hle
            exact Score.le_trans (Score.lt_le hlt) hle
          · simp only [eq_false_of_ne_true hlt, Bool.false_eq_true, if_false] at hle
            exact hle
        · exact Or.inr hle

/-- C10: on every return path (time cutoff, immediate fail-high, no
captures, in-loop fail-high, end-of-loop alpha), whenever `_quiescence`
returns a value it is at least the stand-pat value
`perspective * evaluate(position)` — the side to move can always do at
least as well as standing pat. -/
theorem C10_quiescence_ge_standpat (g : Game) (ctx : SearchCtx g)
    (fuel : Nat) (p : g.Pos) (alpha beta : Score) (color : Int)
    (s : SearchSt g) (v : Score) (s' : SearchSt g)
    (h : quiescence g ctx fuel p alpha beta color s = some (v, s')) :
    Score.le (Score.fin (colorMul color (evaluate g p))) v = true := by
  cases fuel with
  | zero => simp [quiescence] at h
  | succ n =>
    unfold quiescence at h
    by_cases hexp : (timeExpired ctx (logCall alpha beta s)).1 = true
    · simp only [hexp, if_true, Option.some.injEq, Prod.mk.injEq] at h
      exact h.1 ▸ Score.le_refl _
    · simp only [eq_false_of_ne_true hexp, Bool.false_eq_true, if_false] at h
      by_cases hb : Score.le beta (Score.fin (colorMul color (evaluate g p))) = true
      · simp only [hb, if_true, Option.some.injEq, Prod.mk.injEq] at h
        exact h.1 ▸ Score.le_refl _
      · simp only [eq_false_of_ne_true hb, Bool.false_eq_true, if_false] at h
        by_cases hc :
            ((g.legalMoves p).filter (fun m => g.isCapture p m)).isEmpty = true
        · simp only [hc, if_true, Option.some.injEq, Prod.mk.injEq] at h
          exact h.1 ▸ Score.le_refl _
        · simp only [hc, Bool.false_eq_true, if_false] at h
          rcases qLoopGen_ge ctx (quiescence g ctx n) p beta color _ _ _ v s' h
              with hle | hle
          · by_cases hlt :
                alpha.lt (Score.fin (colorMul color (evaluate g p))) = true
            · simp only [hlt, if_true] at hle
              exact hle
            · simp only [eq_false_of_ne_true hlt, Bool.false_eq_true,
                if_false] at hle
              have : Score.le (Score.fin (colorMul color (evaluate g p))) alpha
                  = true := by
                unfold Score.lt at hlt
                simpa using hlt
              exact Score.le_trans this hle
          · have hsb : (Score.fin (colorMul color (evaluate g p))).lt beta
                = true := by
              unfold Score.lt
              simp [eq_false_of_ne_true hb]
            exact Score.lt_le (Score.lt_of_lt_of_le hsb hle)

/-- Witness for C10 on `G3` position 2 (stand-pat 280, full window). -/
theorem C10_quiescence_ge_standpat_witness :
    Score.le (Score.fin (colorMul 1 (evaluate G3 (2 : Fin 3))))
      ((quiescence G3 (ctxId G3) 1 (2 : Fin 3) Score.negInf Score.posInf 1
        (stEmpty G3)).getD (Score.negInf, stEmpty G3)).1 = true :=
  C10_quiescence_ge_standpat G3 (ctxId G3) 1 (2 : Fin 3) Score.negInf
    Score.posInf 1 (stEmpty G3) _ _ rfl

/-! ## Claim C6: stand-pat exactness without captures -/

/-- With no legal captures and the deadline not passed, `_quiescence`
returns exactly the stand-pat value `perspective * evaluate(position)`. -/
theorem quiescence_no_captures {g : Game} (ctx : SearchCtx g) (fuel : Nat)
    (p : g.Pos) (alpha beta : Score) (color : Int) (s : SearchSt g)
    (hfuel : fuel ≠ 0)
    (hTime : (ctx.hasDeadline && ctx.timeUp s.tick) = false)
    (hNoCap : (g.legalMoves p).filter (fun m => g.isCapture p m) = []) :
    (quiescence g ctx fuel p alpha beta color s).map Prod.fst =
      some (Score.fin (colorMul color (evaluate g p))) := by
  obtain ⟨n, rfl⟩ := Nat.exists_eq_succ_of_ne_zero hfuel
  unfold quiescence
  have hexp : (timeExpired ctx (logCall alpha beta s)).1 = false := by
    rw [timeExpired_fst]
    simpa [logCall] using hTime
  simp only [hexp, Bool.false_eq_true, if_false, hNoCap, List.filter_nil,
    List.isEmpty_nil, if_true]
  split <;> rfl

/-- C6: with no legal captures and the deadline not passed, `_quiescence`
returns exactly the stand-pat value `perspective * evaluate(position)`;
consequently `_negamax` at depth 0 on such a position, absent a cached
entry for its key, returns the evaluator's stand-pat value exactly. -/
theorem C6_depth0_standpat (g : Game) (ctx : SearchCtx g) (fuel : Nat)
    (p : g.Pos) (alpha beta : Score) (color : Int) (s : SearchSt g)
    (hfuel : fuel ≠ 0)
    (hTime : (ctx.hasDeadline && ctx.timeUp s.tick) = false)
    (hTime2 : (ctx.hasDeadline && ctx.timeUp (s.tick + 1)) = false)
    (hNoCap : (g.legalMoves p).filter (fun m => g.isCapture p m) = [])
    (hMiss : ttGet s.tt (g.key p) = none) :
    (quiescence g ctx fuel p alpha beta color s).map Prod.fst =
      some (Score.fin (colorMul color (evaluate g p))) ∧
    (negamax g ctx 0 p alpha beta color s).map Prod.fst =
      some (Score.fin (colorMul color (evaluate g p))) := by
  refine ⟨quiescence_no_captures ctx fuel p alpha beta color s hfuel hTime
    hNoCap, ?_⟩
  have htt : (timeExpired ctx (logCall alpha beta s)).2.tt = s.tt :=
    tickLog_tt ctx alpha beta s
  have hexp : (timeExpired ctx (logCall alpha beta s)).1 = false := by
    rw [timeExpired_fst]
    simpa [logCall] using hTime
  have htick : (ctx.hasDeadline &&
      ctx.timeUp (timeExpired ctx (logCall alpha beta s)).2.tick) = false := by
    unfold timeExpired logCall
    cases hda : ctx.hasDeadline
    · simp
    · simpa [hda] using hTime2
  show (negamaxPre g ctx (fun _ _ _ _ _ => none) 0 p alpha beta color s).map
    Prod.fst = _
  unfold negamaxPre
  simp only [hexp, Bool.false_eq_true, if_false, htt, hMiss]
  unfold negamaxCore
  simp only [if_pos rfl]
  exact quiescence_no_captures ctx _ p alpha beta color _
    (Nat.succ_ne_zero _) htick hNoCap

/-- Witness for C6 on `G3` position 1 (no moves at all, stand-pat 110). -/
theorem C6_depth0_standpat_witness :
    (quiescence G3 (ctxId G3) 1 (1 : Fin 3) Score.negInf Score.posInf 1
      (stEmpty G3)).map Prod.fst =
      some (Score.fin (colorMul 1 (evaluate G3 (1 : Fin 3)))) ∧
    (negamax G3 (ctxId G3) 0 (1 : Fin 3) Score.negInf Score.posInf 1
      (stEmpty G3)).map Prod.fst =
      some (Score.fin (colorMul 1 (evaluate G3 (1 : Fin 3)))) :=
  C6_depth0_standpat G3 (ctxId G3) 1 (1 : Fin 3) Score.negInf Score.posInf 1
    (stEmpty G3) (by decide) (by decide) (by decide) (by decide) (by decide)

/-! ## Claim C4: the alpha-beta window invariant -/

/-- All window records added between two states are strict windows: every
logged call in `s'` was either already logged in `s` or was entered with
`alpha < beta`. -/
def CallsGood {g : Game} (s s' : SearchSt g) : Prop :=
  ∀ w ∈ s'.calls, w ∈ s.calls ∨ w.1.lt w.2 = true

theorem CallsGood.rfl {g : Game} (s : SearchSt g) : CallsGood s s :=
  fun _ hw => Or.inl hw

theorem CallsGood.trans {g : Game} {s1 s2 s3 : SearchSt g}
    (h12 : CallsGood s1 s2) (h23 : CallsGood s2 s3) : CallsGood s1 s3 :=
  fun w hw => (h23 w hw).elim (fun h => h12 w h) Or.inr

theorem callsGood_of_calls_eq {g : Game} {s s' : SearchSt g}
    (h : s'.calls = s.calls) : CallsGood s s' :=
  fun w hw => Or.inl (h ▸ hw)

theorem timeExpired_calls {g : Game} (ctx : SearchCtx g) (s : SearchSt g) :
    (timeExpired ctx s).2.calls = s.calls := by
  unfold timeExpired
  split <;> rfl

theorem order_moves_calls (g : Game) (ctx : SearchCtx g) (p : g.Pos)
    (moves : List g.Move) (tm : Option g.Move) (s : SearchSt g) :
    (order_moves g ctx p moves tm s).2.calls = s.calls := by
  unfold order_moves
  cases tm <;> rfl

theorem CallsGood.log {g : Game} (alpha beta : Score) (s : SearchSt g)
    (h : alpha.lt beta = true) : CallsGood s (logCall alpha beta s) := by
  intro w hw
  have hw' : w = (alpha, beta) ∨ w ∈ s.calls := List.mem_cons.mp hw
  rcases hw' with hw' | hw'
  · subst hw'
    exact Or.inr h
  · exact Or.inl hw'

/-- The state a node holds after its window log and time check collects
only good windows beyond those of the entry state. -/
theorem CallsGood.tickLog {g : Game} (ctx : SearchCtx g) (alpha beta : Score)
    (s : SearchSt g) (h : alpha.lt beta = true) :
    CallsGood s (timeExpired ctx (logCall alpha beta s)).2 :=
  (CallsGood.log alpha beta s h).trans
    (callsGood_of_calls_eq (timeExpired_calls ctx (logCall alpha beta s)))

theorem qLoopGen_callsGood {g : Game} (ctx : SearchCtx g)
    (f : g.Pos → Score → Score → Int → SearchSt g → Option (Score × SearchSt g))
    (p : g.Pos) (beta : Score) (color : Int)
    (hf : ∀ (p' : g.Pos) (a : Score) (s : SearchSt g) (v : Score)
      (s' : SearchSt g), f p' beta.neg a (-color) s = some (v, s') →
      (beta.neg).lt a = true → CallsGood s s') :
    ∀ (ms : List g.Move) (alpha : Score) (s : SearchSt g) (v : Score)
      (s' : SearchSt g),
      qLoopGen g ctx f p beta color ms alpha s = some (v, s') →
      alpha.lt beta = true → CallsGood s s' := by
  intro ms
  induction ms with
  | nil =>
    intro alpha s v s' h _
    unfold qLoopGen at h
    simp only [Option.some.injEq, Prod.mk.injEq] at h
    exact h.2 ▸ CallsGood.rfl s
  | cons m rest ih =>
    intro alpha s v s' h hab
    unfold qLoopGen at h
    cases hfm : f (g.push p m) beta.neg alpha.neg (-color) s with
    | none => simp [hfm] at h
    | some res =>
      obtain ⟨cs, s1⟩ := res
      simp only [hfm] at h
      have h1 : CallsGood s s1 := hf _ _ _ _ _ hfm (by
        rw [Score.neg_lt_neg]
        exact hab)
      by_cases hb : Score.le beta cs.neg = true
      · simp only [hb, if_true, Option.some.injEq, Prod.mk.injEq] at h
        exact h.2 ▸ h1
      · simp only [eq_false_of_ne_true hb, Bool.false_eq_true, if_false] at h
        have hab' : (if alpha.lt cs.neg = true then cs.neg else alpha).lt beta
            = true := by
          by_cases hlt : alpha.lt cs.neg = true
          · simp only [hlt, if_true]
            unfold Score.lt
            simp [eq_false_of_ne_true hb]
          · simp only [hlt, Bool.false_eq_true, if_false]
            exact hab
        exact h1.trans (ih _ s1 v s' h hab')

theorem quiescence_callsGood {g : Game} (ctx : SearchCtx g) :
    ∀ (fuel : Nat) (p : g.Pos) (alpha beta : Score) (color : Int)
      (s : SearchSt g) (v : Score) (s' : SearchSt g),
      quiescence g ctx fuel p alpha beta color s = some (v, s') →
      alpha.lt beta = true → CallsGood s s' := by
  intro fuel
  induction fuel with
  | zero =>
    intro p alpha beta color s v s' h
    simp [quiescence] at h
  | succ n ih =>
    intro p alpha beta color s v s' h hab
    have htime : CallsGood s (timeExpired ctx (logCall alpha beta s)).2 :=
      CallsGood.tickLog ctx alpha beta s hab
    unfold quiescence at h
    by_cases hexp : (timeExpired ctx (logCall alpha beta s)).1 = true
    · simp only [hexp, if_true, Option.some.injEq, Prod.mk.injEq] at h
      exact h.2 ▸ htime
    · simp only [eq_false_of_ne_true hexp, Bool.false_eq_true, if_false] at h
      by_cases hb : Score.le beta (Score.fin (colorMul color (evaluate g p)))
          = true
      · simp only [hb, if_true, Option.some.injEq, Prod.mk.injEq] at h
        exact h.2 ▸ htime
      · simp only [eq_false_of_ne_true hb, Bool.false_eq_true, if_false] at h
        by_cases hc :
            ((g.legalMoves p).filter (fun m => g.isCapture p m)).isEmpty = true
        · simp only [hc, if_true, Option.some.injEq, Prod.mk.injEq] at h
          exact h.2 ▸ htime
        · simp only [hc, Bool.false_eq_true, if_false] at h
          have hab' : (if alpha.lt (Score.fin (colorMul color (evaluate g p)))
              = true then Score.fin (colorMul color (evaluate g p))
              else alpha).lt beta = true := by
            by_cases hlt : alpha.lt (Score.fin (colorMul color (evaluate g p)))
                = true
            · simp only [hlt, if_true]
              unfold Score.lt
              simp [eq_false_of_ne_true hb]
            · simp only [hlt, Bool.false_eq_true, if_false]
              exact hab
          exact htime.trans (qLoopGen_callsGood ctx (quiescence g ctx n) p beta
            color (fun p' a s0 v0 s0' heq hw => ih p' beta.neg a (-color) s0 v0
              s0' heq hw) _ _ _ v s' h hab')

theorem nLoopGen_callsGood {g : Game} (ctx : SearchCtx g)
    (f : g.Pos → Score → Score → Int → SearchSt g → Option (Score × SearchSt g))
    (p : g.Pos) (beta : Score) (color : Int)
    (hf : ∀ (p' : g.Pos) (a : Score) (s : SearchSt g) (v : Score)
      (s' : SearchSt g), f p' beta.neg a (-color) s = some (v, s') →
      (beta.neg).lt a = true → CallsGood s s') :
    ∀ (ms : List g.Move) (alpha value : Score) (bm : Option g.Move)
      (s : SearchSt g) (out : Score × Score × Option g.Move × SearchSt g),
      nLoopGen g ctx f p beta color ms alpha value bm s = some out →
      alpha.lt beta = true → CallsGood s out.2.2.2 := by
  intro ms
  induction ms with
  | nil =>
    intro alpha value bm s out h _
    unfold nLoopGen at h
    simp only [Option.some.injEq] at h
    exact h ▸ CallsGood.rfl s
  | cons m rest ih =>
    intro alpha value bm s out h hab
    unfold nLoopGen at h
    cases hfm : f (g.push p m) beta.neg alpha.neg (-color) s with
    | none => simp [hfm] at h
    | some res =>
      obtain ⟨cs, s1⟩ := res
      simp only [hfm] at h
      have h1 : CallsGood s s1 := hf _ _ _ _ _ hfm (by
        rw [Score.neg_lt_neg]
        exact hab)
      by_cases hcut : Score.le beta
          (Score.max alpha (if value.lt cs.neg = true then (cs.neg, some m)
            else (value, bm)).1) = true
      · simp only [hcut, if_true, Option.some.injEq] at h
        exact h ▸ h1
      · simp only [hcut, Bool.false_eq_true, if_false] at h
        have hab' : (Score.max alpha (if value.lt cs.neg = true
            then (cs.neg, some m) else (value, bm)).1).lt beta = true :=
          Score.lt_of_not_ge hcut
        exact h1.trans (ih _ _ _ s1 out h hab')

theorem negamaxCore_callsGood {g : Game} (ctx : SearchCtx g)
    (f : g.Pos → Score → Score → Int → SearchSt g → Option (Score × SearchSt g))
    (hf : ∀ (p' : g.Pos) (a b : Score) (c : Int) (s : SearchSt g) (v : Score)
      (s' : SearchSt g), f p' a b c s = some (v, s') →
      a.lt b = true → CallsGood s s') :
    ∀ (depth : Nat) (p : g.Pos) (entry? : Option (TTEntry g.Move))
      (alpha beta : Score) (color : Int) (s : SearchSt g) (v : Score)
      (s' : SearchSt g),
      negamaxCore g ctx f depth p entry? alpha beta color s = some (v, s') →
      alpha.lt beta = true → CallsGood s s' := by
  intro depth p entry? alpha beta color s v s' h hab
  unfold negamaxCore at h
  by_cases hd : depth = 0
  · simp only [hd, if_pos rfl] at h
    exact quiescence_callsGood ctx _ p alpha beta color s v s' h hab
  · simp only [hd, if_false] at h
    by_cases hleg : (g.legalMoves p).isEmpty = true
    · simp only [hleg, if_true] at h
      split at h <;>
        · simp only [Option.some.injEq, Prod.mk.injEq] at h
          exact h.2 ▸ CallsGood.rfl s
    · simp only [hleg, Bool.false_eq_true, if_false] at h
      cases hnl : nLoopGen g ctx f p beta color
          (order_moves g ctx p (g.legalMoves p) (ttSuggestion entry?) s).1
          alpha Score.negInf none
          (order_moves g ctx p (g.legalMoves p) (ttSuggestion entry?) s).2 with
      | none =>
        simp only [hnl] at h
        exact Option.noConfusion h
      | some out =>
        obtain ⟨value, alpha1, bm, s1⟩ := out
        simp only [hnl, Option.some.injEq, Prod.mk.injEq] at h
        have hords : CallsGood s (order_moves g ctx p (g.legalMoves p)
            (ttSuggestion entry?) s).2 :=
          callsGood_of_calls_eq (order_moves_calls g ctx p _ _ s)
        have hloop : CallsGood s s1 := hords.trans
          (nLoopGen_callsGood ctx f p beta color
            (fun p' a s0 v0 s0' heq hw => hf p' beta.neg a (-color) s0 v0 s0'
              heq hw) _ _ _ _ _ _ hnl hab)
        have hs' : s'.calls = s1.calls := by
          rw [← h.2]
        exact hloop.trans (callsGood_of_calls_eq hs')

theorem negamaxPre_callsGood {g : Game} (ctx : SearchCtx g)
    (f : g.Pos → Score → Score → Int → SearchSt g → Option (Score × SearchSt g))
    (hf : ∀ (p' : g.Pos) (a b : Score) (c : Int) (s : SearchSt g) (v : Score)
      (s' : SearchSt g), f p' a b c s = some (v, s') →
      a.lt b = true → CallsGood s s') :
    ∀ (depth : Nat) (p : g.Pos) (alpha beta : Score) (color : Int)
      (s : SearchSt g) (v : Score) (s' : SearchSt g),
      negamaxPre g ctx f depth p alpha beta color s = some (v, s') →
      alpha.lt beta = true → CallsGood s s' := by
  intro depth p alpha beta color s v s' h hab
  have htime : CallsGood s (timeExpired ctx (logCall alpha beta s)).2 :=
    CallsGood.tickLog ctx alpha beta s hab
  unfold negamaxPre at h
  by_cases hexp : (timeExpired ctx (logCall alpha beta s)).1 = true
  · simp only [hexp, if_true, Option.some.injEq, Prod.mk.injEq] at h
    exact h.2 ▸ htime
  · simp only [eq_false_of_ne_true hexp, Bool.false_eq_true, if_false] at h
    cases hget : ttGet (timeExpired ctx (logCall alpha beta s)).2.tt (g.key p)
        with
    | none =>
      simp only [hget] at h
      exact htime.trans (negamaxCore_callsGood ctx f hf depth p _ alpha beta
        color _ v s' h hab)
    | some e =>
      simp only [hget] at h
      by_cases hd : depth ≤ e.depth
      · simp only [hd, if_true] at h
        cases hnt : e.node_type with
        | EXACT =>
          simp only [hnt, Option.some.injEq, Prod.mk.injEq] at h
          exact h.2 ▸ htime
        | LOWERBOUND =>
          simp only [hnt] at h
          by_cases hcut : Score.le beta (Score.max alpha e.score) = true
          · simp only [hcut, if_true, Option.some.injEq, Prod.mk.injEq] at h
            exact h.2 ▸ htime
          · simp only [hcut, Bool.false_eq_true, if_false] at h
            exact htime.trans (negamaxCore_callsGood ctx f hf depth p _ _ beta
              color _ v s' h (Score.lt_of_not_ge hcut))
        | UPPERBOUND =>
          simp only [hnt] at h
          by_cases hcut : Score.le (Score.min beta e.score) alpha = true
          · simp only [hcut, if_true, Option.some.injEq, Prod.mk.injEq] at h
            exact h.2 ▸ htime
          · simp only [hcut, Bool.false_eq_true, if_false] at h
            have : alpha.lt (Score.min beta e.score) = true :=
              Score.lt_of_not_ge hcut
            exact htime.trans (negamaxCore_callsGood ctx f hf depth p _ alpha _
              color _ v s' h this)
      · simp only [hd, if_false] at h
        exact htime.trans (negamaxCore_callsGood ctx f hf depth p _ alpha beta
          color _ v s' h hab)

theorem negamax_callsGood {g : Game} (ctx : SearchCtx g) :
    ∀ (depth : Nat) (p : g.Pos) (alpha beta : Score) (color : Int)
      (s : SearchSt g) (v : Score) (s' : SearchSt g),
      negamax g ctx depth p alpha beta color s = some (v, s') →
      alpha.lt beta = true → CallsGood s s' := by
  intro depth
  induction depth with
  | zero =>
    exact negamaxPre_callsGood ctx _ (fun p' a b c s v s' heq _ => by
      simp at heq) 0
  | succ n ih =>
    exact negamaxPre_callsGood ctx _ (fun p' a b c s v s' heq hw =>
      ih p' a b c s v s' heq hw) (n + 1)

theorem rLoop_callsGood {g : Game} (ctx : SearchCtx g) (depth : Nat)
    (p : g.Pos) (beta : Score) (color : Int) :
    ∀ (ms : List g.Move) (alpha bs : Score) (bm : Option g.Move)
      (s : SearchSt g) (out : Score × Option g.Move × SearchSt g),
      rLoop g ctx depth p beta color ms alpha bs bm s = some out →
      alpha.lt beta = true → CallsGood s out.2.2 := by
  intro ms
  induction ms with
  | nil =>
    intro alpha bs bm s out h _
    unfold rLoop at h
    simp only [Option.some.injEq] at h
    exact h ▸ CallsGood.rfl s
  | cons m rest ih =>
    intro alpha bs bm s out h hab
    unfold rLoop at h
    by_cases hexp : (timeExpired ctx s).1 = true
    · simp only [hexp, if_true, Option.some.injEq] at h
      exact h ▸ callsGood_of_calls_eq (timeExpired_calls ctx s)
    · simp only [eq_false_of_ne_true hexp, Bool.false_eq_true, if_false] at h
      have ht : CallsGood s (timeExpired ctx s).2 :=
        callsGood_of_calls_eq (timeExpired_calls ctx s)
      cases hfm : negamax g ctx (depth - 1) (g.push p m) beta.neg alpha.neg
          (-color) (timeExpired ctx s).2 with
      | none =>
        simp only [hfm] at h
        exact Option.noConfusion h
      | some res =>
        obtain ⟨cs, s1⟩ := res
        simp only [hfm] at h
        have h1 : CallsGood s s1 := ht.trans
          (negamax_callsGood ctx (depth - 1) (g.push p m) beta.neg alpha.neg
            (-color) _ cs s1 hfm (by
              rw [Score.neg_lt_neg]
              exact hab))
        by_cases hcut : Score.le beta (Score.max alpha cs.neg) = true
        · simp only [hcut, if_true, Option.some.injEq] at h
          exact h ▸ h1
        · simp only [hcut, Bool.false_eq_true, if_false] at h
          exact h1.trans (ih _ _ _ s1 out h (Score.lt_of_not_ge hcut))

theorem negamax_root_callsGood {g : Game} (ctx : SearchCtx g) (depth : Nat)
    (p : g.Pos) (s : SearchSt g)
    (out : Score × Option g.Move × SearchSt g)
    (h : negamax_root g ctx depth p s = some out) : CallsGood s out.2.2 := by
  unfold negamax_root at h
  by_cases hleg : (g.legalMoves p).isEmpty = true
  · simp only [hleg, if_true, Option.some.injEq] at h
    exact h ▸ CallsGood.rfl s
  · simp only [hleg, Bool.false_eq_true, if_false] at h
    exact (callsGood_of_calls_eq (order_moves_calls g ctx p _ _ s)).trans
      (rLoop_callsGood ctx depth p Score.posInf _ _ _ _ _ _ out h rfl)

theorem sbmLoop_callsGood {g : Game} (ctx : SearchCtx g) (p : g.Pos) :
    ∀ (ds : List Nat) (bm : Option g.Move) (bs : Score) (s : SearchSt g)
      (out : Option g.Move × Score × SearchSt g),
      sbmLoop g ctx p ds bm bs s = some out → CallsGood s out.2.2 := by
  intro ds
  induction ds with
  | nil =>
    intro bm bs s out h
    unfold sbmLoop at h
    simp only [Option.some.injEq] at h
    exact h ▸ CallsGood.rfl s
  | cons d rest ih =>
    intro bm bs s out h
    unfold sbmLoop at h
    by_cases hexp : (timeExpired ctx s).1 = true
    · simp only [hexp, if_true, Option.some.injEq] at h
      exact h ▸ callsGood_of_calls_eq (timeExpired_calls ctx s)
    · simp only [eq_false_of_ne_true hexp, Bool.false_eq_true, if_false] at h
      have ht : CallsGood s (timeExpired ctx s).2 :=
        callsGood_of_calls_eq (timeExpired_calls ctx s)
      cases hr : negamax_root g ctx d p (timeExpired ctx s).2 with
      | none =>
        simp only [hr] at h
        exact Option.noConfusion h
      | some res =>
        obtain ⟨score, move, s1⟩ := res
        simp only [hr] at h
        have h1 : CallsGood s s1 :=
          ht.trans (negamax_root_callsGood ctx d p _ (score, move, s1) hr)
        cases move with
        | some m => exact h1.trans (ih _ _ s1 out h)
        | none => exact h1.trans (ih _ _ s1 out h)

/-- C4: every recursive `_negamax` and `_quiescence` invocation reachable
from the root search — whose window log starts empty in `s` — is entered
with `alpha < beta`: every window recorded during `search_best_move`
(whose root windows start at `-inf, +inf` and whose loops stop as soon as
`alpha >= beta`) that was not already present on entry is strict. -/
theorem C4_window_invariant (g : Game) (ctx : SearchCtx g) (p : g.Pos)
    (depth : Nat) (s : SearchSt g) (r : Option g.Move) (s' : SearchSt g)
    (h : search_best_move g ctx p depth s = some (r, s')) :
    ∀ w ∈ s'.calls, w ∈ s.calls ∨ w.1.lt w.2 = true := by
  unfold search_best_move at h
  cases hl : sbmLoop g ctx p (List.range' 1 depth) none
      (if g.turn p then Score.negInf else Score.posInf) s with
  | none =>
    simp only [hl] at h
    exact Option.noConfusion h
  | some out =>
    obtain ⟨bm, bs, s1⟩ := out
    simp only [hl] at h
    have hc : CallsGood s s1 := sbmLoop_callsGood ctx p _ _ _ s (bm, bs, s1) hl
    cases bm with
    | some m =>
      simp only [Option.some.injEq, Prod.mk.injEq] at h
      exact h.2 ▸ hc
    | none =>
      by_cases hleg : (g.legalMoves p).isEmpty = true
      · simp only [hleg, if_true, Option.some.injEq, Prod.mk.injEq] at h
        exact h.2 ▸ hc
      · simp only [hleg, Bool.false_eq_true, if_false, Option.some.injEq,
          Prod.mk.injEq] at h
        exact h.2 ▸ hc

/-- Concrete search run for the C4 witness. -/
def C4run : Option G3.Move × SearchSt G3 :=
  (search_best_move G3 (ctxId G3) (0 : Fin 3) 1 (stEmpty G3)).getD
    (none, stEmpty G3)

/-- Most recent window logged by the witness run. -/
def C4w : Score × Score :=
  C4run.2.calls.head?.getD (Score.posInf, Score.negInf)

/-- Witness for C4: the most recently logged window of a concrete search
is strict. -/
theorem C4_window_invariant_witness : C4w.1.lt C4w.2 = true :=
  (C4_window_invariant G3 (ctxId G3) (0 : Fin 3) 1 (stEmpty G3) C4run.1
    C4run.2 rfl C4w (by decide)).resolve_left (by decide)

/-! ## Claim C1: the entry point returns a legal move exactly when one
exists -/

theorem nLoopGen_isSome {g : Game} (ctx : SearchCtx g)
    (f : g.Pos → Score → Score → Int → SearchSt g → Option (Score × SearchSt g))
    (p : g.Pos) (beta : Score) (color : Int)
    (hfs : ∀ (p' : g.Pos) (a b : Score) (c : Int) (s : SearchSt g),
      (f p' a b c s).isSome = true) :
    ∀ (ms : List g.Move) (alpha value : Score) (bm : Option g.Move)
      (s : SearchSt g),
      (nLoopGen g ctx f p beta color ms alpha value bm s).isSome = true := by
  intro ms
  induction ms with
  | nil => intro alpha value bm s; simp [nLoopGen]
  | cons m rest ih =>
    intro alpha value bm s
    unfold nLoopGen
    obtain ⟨res, hfm⟩ := Option.isSome_iff_exists.mp
      (hfs (g.push p m) beta.neg alpha.neg (-color) s)
    obtain ⟨cs, s1⟩ := res
    simp only [hfm]
    by_cases hcut : Score.le beta (Score.max alpha
        (if value.lt cs.neg = true then (cs.neg, some m) else (value, bm)).1)
        = true
    · simp [hcut]
    · simp only [hcut, Bool.false_eq_true, if_false]
      exact ih _ _ _ s1

theorem negamaxCore_isSome {g : Game} (ctx : SearchCtx g)
    (hcap : CaptureDec g)
    (f : g.Pos → Score → Score → Int → SearchSt g → Option (Score × SearchSt g))
    (depth : Nat) (p : g.Pos) (entry? : Option (TTEntry g.Move))
    (alpha beta : Score) (color : Int) (s : SearchSt g)
    (hfs : depth ≠ 0 → ∀ (p' : g.Pos) (a b : Score) (c : Int)
      (s' : SearchSt g), (f p' a b c s').isSome = true) :
    (negamaxCore g ctx f depth p entry? alpha beta color s).isSome = true := by
  unfold negamaxCore
  by_cases hd : depth = 0
  · simp only [hd, if_pos rfl]
    exact quiescence_isSome_of_fuel ctx hcap _ p alpha beta color s
      (Nat.lt_succ_self _)
  · simp only [hd, if_false]
    by_cases hleg : (g.legalMoves p).isEmpty = true
    · simp only [hleg, if_true]
      split <;> rfl
    · simp only [hleg, Bool.false_eq_true, if_false]
      obtain ⟨out, hnl⟩ := Option.isSome_iff_exists.mp
        (nLoopGen_isSome ctx f p beta color (hfs hd)
          (order_moves g ctx p (g.legalMoves p) (ttSuggestion entry?) s).1
          alpha Score.negInf none
          (order_moves g ctx p (g.legalMoves p) (ttSuggestion entry?) s).2)
      obtain ⟨value, alpha1, bm, s1⟩ := out
      simp [hnl]

theorem negamaxPre_isSome {g : Game} (ctx : SearchCtx g)
    (hcap : CaptureDec g)
    (f : g.Pos → Score → Score → Int → SearchSt g → Option (Score × SearchSt g))
    (depth : Nat) (p : g.Pos) (alpha beta : Score) (color : Int)
    (s : SearchSt g)
    (hfs : depth ≠ 0 → ∀ (p' : g.Pos) (a b : Score) (c : Int)
      (s' : SearchSt g), (f p' a b c s').isSome = true) :
    (negamaxPre g ctx f depth p alpha beta color s).isSome = true := by
  unfold negamaxPre
  by_cases hexp : (timeExpired ctx (logCall alpha beta s)).1 = true
  · simp [hexp]
  · simp only [eq_false_of_ne_true hexp, Bool.false_eq_true, if_false]
    cases hget : ttGet (timeExpired ctx (logCall alpha beta s)).2.tt (g.key p)
        with
    | none =>
      simp only [hget]
      exact negamaxCore_isSome ctx hcap f depth p _ alpha beta color _ hfs
    | some e =>
      simp only [hget]
      by_cases hd : depth ≤ e.depth
      · simp only [hd, if_true]
        cases e.node_type with
        | EXACT => rfl
        | LOWERBOUND =>
          by_cases hcut : Score.le beta (Score.max alpha e.score) = true
          · simp [hcut]
          · simp only [hcut, Bool.false_eq_true, if_false]
            exact negamaxCore_isSome ctx hcap f depth p _ _ beta color _ hfs
        | UPPERBOUND =>
          by_cases hcut : Score.le (Score.min beta e.score) alpha = true
          · simp [hcut]
          · simp only [hcut, Bool.false_eq_true, if_false]
            exact negamaxCore_isSome ctx hcap f depth p _ alpha _ color _ hfs
      · simp only [hd, if_false]
        exact negamaxCore_isSome ctx hcap f depth p _ alpha beta color _ hfs

/-- With the capture-decrease fact, `_negamax` always returns a value. -/
theorem negamax_isSome {g : Game} (ctx : SearchCtx g) (hcap : CaptureDec g) :
    ∀ (depth : Nat) (p : g.Pos) (alpha beta : Score) (color : Int)
      (s : SearchSt g),
      (negamax g ctx depth p alpha beta color s).isSome = true := by
  intro depth
  induction depth with
  | zero =>
    intro p alpha beta color s
    exact negamaxPre_isSome ctx hcap _ 0 p alpha beta color s
      (fun hd => absurd rfl hd)
  | succ n ih =>
    intro p alpha beta color s
    exact negamaxPre_isSome ctx hcap _ (n + 1) p alpha beta color s
      (fun _ p' a b c s' => ih p' a b c s')

theorem order_moves_subset {g : Game} (ctx : SearchCtx g)
    (hshuf : ∀ (n : Nat) (l : List g.Move) (m : g.Move),
      m ∈ ctx.shuffle n l → m ∈ l)
    (p : g.Pos) (moves : List g.Move) (s : SearchSt g) :
    ∀ m ∈ (order_moves g ctx p moves none s).1, m ∈ moves := by
  intro m hm
  unfold order_moves at hm
  rcases List.mem_append.mp hm with h | h
  · exact (List.mem_filter.mp (hshuf _ _ _ h)).1
  · exact (List.mem_filter.mp (hshuf _ _ _ h)).1

theorem randomChoice_mem {α : Type} {idx : Nat} {l : List α} {a : α}
    (h : randomChoice idx l = some a) : a ∈ l :=
  List.get?_mem h

theorem randomChoice_isSome {α : Type} (idx : Nat) (l : List α)
    (h : ¬ l = []) : (randomChoice idx l).isSome = true := by
  unfold randomChoice
  cases hg : l.get? (idx % l.length) with
  | none =>
    have := List.get?_eq_none.mp hg
    have hlt : idx % l.length < l.length :=
      Nat.mod_lt _ (List.length_pos.mpr h)
    omega
  | some a => rfl

theorem rLoop_move {g : Game} (ctx : SearchCtx g) (hcap : CaptureDec g)
    (depth : Nat) (p : g.Pos) (beta : Score) (color : Int) :
    ∀ (ms : List g.Move) (alpha bs : Score) (bm : Option g.Move)
      (s : SearchSt g),
      ∃ out, rLoop g ctx depth p beta color ms alpha bs bm s = some out ∧
        ∀ m, out.2.1 = some m → bm = some m ∨ m ∈ ms := by
  intro ms
  induction ms with
  | nil =>
    intro alpha bs bm s
    exact ⟨(bs, bm, s), rfl, fun m hm => Or.inl hm⟩
  | cons mv rest ih =>
    intro alpha bs bm s
    unfold rLoop
    by_cases hexp : (timeExpired ctx s).1 = true
    · exact ⟨(bs, bm, (timeExpired ctx s).2), by simp [hexp],
        fun m hm => Or.inl hm⟩
    · obtain ⟨res, hfm⟩ := Option.isSome_iff_exists.mp
        (negamax_isSome ctx hcap (depth - 1) (g.push p mv) beta.neg alpha.neg
          (-color) (timeExpired ctx s).2)
      obtain ⟨cs, s1⟩ := res
      by_cases hcut : Score.le beta (Score.max alpha cs.neg) = true
      · refine ⟨((if bs.lt cs.neg = true then (cs.neg, some mv)
          else (bs, bm)).1,
          (if bs.lt cs.neg = true then (cs.neg, some mv) else (bs, bm)).2,
          s1), ?_, ?_⟩
        · simp [eq_false_of_ne_true hexp, hfm, hcut]
        · intro m hm
          by_cases hlt : bs.lt cs.neg = true
          · simp only [hlt, if_true] at hm
            injection hm with hm
            exact Or.inr (hm ▸ List.mem_cons_self mv rest)
          · simp only [hlt, Bool.false_eq_true, if_false] at hm
            exact Or.inl hm
      · obtain ⟨out, hout, hmv⟩ := ih (Score.max alpha cs.neg)
          (if bs.lt cs.neg = true then (cs.neg, some mv) else (bs, bm)).1
          (if bs.lt cs.neg = true then (cs.neg, some mv) else (bs, bm)).2 s1
        refine ⟨out, ?_, ?_⟩
        · simp [eq_false_of_ne_true hexp, hfm, hcut, hout]
        · intro m hm
          rcases hmv m hm with hf | hf
          · by_cases hlt : bs.lt cs.neg = true
            · simp only [hlt, if_true] at hf
              injection hf with hf
              exact Or.inr (hf ▸ List.mem_cons_self mv rest)
            · simp only [hlt, Bool.false_eq_true, if_false] at hf
              exact Or.inl hf
          · exact Or.inr (List.mem_cons_of_mem mv hf)

theorem negamax_root_spec {g : Game} (ctx : SearchCtx g) (hcap : CaptureDec g)
    (hshuf : ∀ (n : Nat) (l : List g.Move) (m : g.Move),
      m ∈ ctx.shuffle n l → m ∈ l)
    (depth : Nat) (p : g.Pos) (s : SearchSt g) :
    ∃ out, negamax_root g ctx depth p s = some out ∧
      (∀ m, out.2.1 = some m → m ∈ g.legalMoves p) ∧
      ((g.legalMoves p).isEmpty = true → out.2.1 = none) := by
  unfold negamax_root
  by_cases hleg : (g.legalMoves p).isEmpty = true
  · refine ⟨(Score.fin (evaluate g p), none, s), by simp [hleg], ?_, ?_⟩
    · intro m hm
      exact Option.noConfusion hm
    · intro
      rfl
  · obtain ⟨out, hout, hmv⟩ := rLoop_move ctx hcap depth p Score.posInf
      (if g.turn p then 1 else -1)
      (order_moves g ctx p (g.legalMoves p) none s).1 Score.negInf
      Score.negInf none (order_moves g ctx p (g.legalMoves p) none s).2
    refine ⟨out, by simp [hleg, hout], ?_, fun h => absurd h hleg⟩
    intro m hm
    rcases hmv m hm with hf | hf
    · exact Option.noConfusion hf
    · exact order_moves_subset ctx hshuf p (g.legalMoves p) s m hf

theorem sbmLoop_spec {g : Game} (ctx : SearchCtx g) (hcap : CaptureDec g)
    (hshuf : ∀ (n : Nat) (l : List g.Move) (m : g.Move),
      m ∈ ctx.shuffle n l → m ∈ l) (p : g.Pos) :
    ∀ (ds : List Nat) (bm : Option g.Move) (bs : Score) (s : SearchSt g),
      ∃ out, sbmLoop g ctx p ds bm bs s = some out ∧
        (∀ m, out.1 = some m → bm = some m ∨ m ∈ g.legalMoves p) ∧
        ((g.legalMoves p).isEmpty = true → out.1 = bm) := by
  intro ds
  induction ds with
  | nil =>
    intro bm bs s
    exact ⟨(bm, bs, s), rfl, fun m hm => Or.inl hm, fun _ => rfl⟩
  | cons d rest ih =>
    intro bm bs s
    unfold sbmLoop
    by_cases hexp : (timeExpired ctx s).1 = true
    · exact ⟨(bm, bs, (timeExpired ctx s).2), by simp [hexp],
        fun m hm => Or.inl hm, fun _ => rfl⟩
    · obtain ⟨rout, hr, hrm, hrn⟩ := negamax_root_spec ctx hcap hshuf d p
        (timeExpired ctx s).2
      obtain ⟨score, move, s1⟩ := rout
      cases move with
      | some m =>
        obtain ⟨out, hout, hmov, hnone⟩ := ih (some m) score s1
        refine ⟨out, by simp [eq_false_of_ne_true hexp, hr, hout], ?_, ?_⟩
        · intro m' hm'
          rcases hmov m' hm' with hf | hf
          · injection hf with hf
            exact Or.inr (hf ▸ hrm m rfl)
          · exact Or.inr hf
        · intro hleg
          exact absurd (hrn hleg) (by simp)
      | none =>
        obtain ⟨out, hout, hmov, hnone⟩ := ih bm bs s1
        exact ⟨out, by simp [eq_false_of_ne_true hexp, hr, hout], hmov, hnone⟩

/-- C1: `search_best_move` never fails: it returns a member of the
position's legal moves whenever one exists (found by a completed root
search or by the uniformly-random fallback `random.choice`) and returns
no move exactly when the position has no legal moves.  The hypotheses
record the rules-provider facts the embedding relies on: legal captures
strictly shrink the piece count, and `random.shuffle` only permutes. -/
theorem C1_search_best_move_legal (g : Game) (ctx : SearchCtx g) (p : g.Pos)
    (depth : Nat) (s : SearchSt g) (hcap : CaptureDec g)
    (hshuf : ∀ (n : Nat) (l : List g.Move) (m : g.Move),
      m ∈ ctx.shuffle n l → m ∈ l) :
    ∃ r s', search_best_move g ctx p depth s = some (r, s') ∧
      (r = none ↔ g.legalMoves p = []) ∧
      (∀ m, r = some m → m ∈ g.legalMoves p) := by
  unfold search_best_move
  obtain ⟨out, hout, hmov, hnone⟩ := sbmLoop_spec ctx hcap hshuf p
    (List.range' 1 depth) none
    (if g.turn p then Score.negInf else Score.posInf) s
  obtain ⟨bm, bs, s1⟩ := out
  simp only [hout]
  cases bm with
  | some m =>
    refine ⟨some m, s1, rfl, ?_, ?_⟩
    · constructor
      · intro hc
        exact Option.noConfusion hc
      · intro hleg
        exact absurd (hnone (by simp [hleg])) (by simp)
    · intro m' hm'
      injection hm' with hm'
      rcases hmov m rfl with hf | hf
      · exact Option.noConfusion hf
      · exact hm' ▸ hf
  | none =>
    by_cases hleg : (g.legalMoves p).isEmpty = true
    · refine ⟨none, s1, by simp [hleg], ?_, ?_⟩
      · simp [List.isEmpty_iff.mp hleg]
      · intro m hm
        exact Option.noConfusion hm
    · obtain ⟨mc, hmc⟩ := Option.isSome_iff_exists.mp
        (randomChoice_isSome ctx.choiceIdx (g.legalMoves p)
          (fun hnil => hleg (List.isEmpty_iff.mpr hnil)))
      refine ⟨some mc, s1, by simp [hleg, hmc], ?_, ?_⟩
      · constructor
        · intro hc
          exact Option.noConfusion hc
        · intro hnil
          exact absurd (List.isEmpty_iff.mpr hnil) hleg
      · intro m' hm'
        injection hm' with hm'
        exact hm' ▸ randomChoice_mem hmc

/-- Witness for C1: the concrete search on `G3` finds a legal move. -/
theorem C1_search_best_move_legal_witness :
    (search_best_move G3 (ctxId G3) (0 : Fin 3) 1 (stEmpty G3)).isSome
      = true := by
  obtain ⟨r, s', heq, _, _⟩ := C1_search_best_move_legal G3 (ctxId G3)
    (0 : Fin 3) 1 (stEmpty G3) capture_dec_G3 (fun _ _ _ h => h)
  rw [heq]
  rfl

/-! ## Claim C9: the search never mutates the caller's board -/

theorem heapFrame_refl {g : Game} (h : Heap g) : HeapFrame g h h :=
  ⟨Nat.le.refl, fun _ _ => Eq.refl _⟩

theorem HeapFrame.chain {g : Game} {h1 h2 h3 : Heap g}
    (a : HeapFrame g h1 h2) (b : HeapFrame g h2 h3) : HeapFrame g h1 h3 :=
  ⟨Nat.le_trans a.1 b.1,
    fun i hi => (b.2 i (Nat.lt_of_lt_of_le hi a.1)).trans (a.2 i hi)⟩

/-- Allocating a clone and pushing a move onto the clone leaves every
object alive before the clone untouched. -/
theorem child_frame {g : Game} (h : Heap g) (r : Nat) (m : g.Move) :
    HeapFrame g h (Heap.pushMove (h.copy r).2 (h.copy r).1 m) := by
  unfold Heap.pushMove Heap.copy
  refine ⟨Nat.le_succ _, fun i hi => ?_⟩
  simp only
  rw [if_neg (Nat.ne_of_lt hi), if_neg (Nat.ne_of_lt hi)]

theorem qLoopRef_frame {g : Game} (ctx : SearchCtx g)
    (f : Nat → Score → Score → Int → Heap g → SearchSt g →
      Option (Score × Heap g × SearchSt g))
    (r : Nat) (beta : Score) (color : Int)
    (hf : ∀ (r' : Nat) (a b : Score) (c : Int) (h : Heap g) (s : SearchSt g)
      out, f r' a b c h s = some out → HeapFrame g h out.2.1) :
    ∀ (ms : List g.Move) (alpha : Score) (h : Heap g) (s : SearchSt g) out,
      qLoopRef g ctx f r beta color ms alpha h s = some out →
      HeapFrame g h out.2.1 := by
  intro ms
  induction ms with
  | nil =>
    intro alpha h s out hq
    unfold qLoopRef at hq
    simp only [Option.some.injEq] at hq
    exact hq ▸ heapFrame_refl h
  | cons m rest ih =>
    intro alpha h s out hq
    unfold qLoopRef at hq
    cases hfm : f (h.copy r).1 beta.neg alpha.neg (-color)
        (Heap.pushMove (h.copy r).2 (h.copy r).1 m) s with
    | none =>
      simp only [hfm] at hq
      exact Option.noConfusion hq
    | some res =>
      obtain ⟨cs, h2, s1⟩ := res
      simp only [hfm] at hq
      have h12 : HeapFrame g h h2 :=
        (child_frame h r m).chain (hf _ _ _ _ _ _ _ hfm)
      by_cases hb : Score.le beta cs.neg = true
      · simp only [hb, if_true, Option.some.injEq] at hq
        exact hq ▸ h12
      · simp only [hb, Bool.false_eq_true, if_false] at hq
        exact h12.chain (ih _ h2 s1 out hq)

theorem quiescenceRef_frame {g : Game} (ctx : SearchCtx g) :
    ∀ (fuel : Nat) (r : Nat) (alpha beta : Score) (color : Int) (h : Heap g)
      (s : SearchSt g) out,
      quiescenceRef g ctx fuel r alpha beta color h s = some out →
      HeapFrame g h out.2.1 := by
  intro fuel
  induction fuel with
  | zero =>
    intro r alpha beta color h s out hq
    simp [quiescenceRef] at hq
  | succ n ih =>
    intro r alpha beta color h s out hq
    unfold quiescenceRef at hq
    by_cases hexp : (timeExpired ctx s).1 = true
    · simp only [hexp, if_true, Option.some.injEq] at hq
      exact hq ▸ heapFrame_refl h
    · simp only [eq_false_of_ne_true hexp, Bool.false_eq_true, if_false] at hq
      by_cases hb : Score.le beta
          (Score.fin (colorMul color (evaluate g (h.mem r)))) = true
      · simp only [hb, if_true, Option.some.injEq] at hq
        exact hq ▸ heapFrame_refl h
      · simp only [hb, Bool.false_eq_true, if_false] at hq
        by_cases hc : ((g.legalMoves (h.mem r)).filter
            (fun m => g.isCapture (h.mem r) m)).isEmpty = true
        · simp only [hc, if_true, Option.some.injEq] at hq
          exact hq ▸ heapFrame_refl h
        · simp only [hc, Bool.false_eq_true, if_false] at hq
          exact qLoopRef_frame ctx (quiescenceRef g ctx n) r beta color
            (fun r' a b c h' s' out' heq => ih r' a b c h' s' out' heq)
            _ _ h _ out hq

theorem nLoopRef_frame {g : Game} (ctx : SearchCtx g)
    (f : Nat → Score → Score → Int → Heap g → SearchSt g →
      Option (Score × Heap g × SearchSt g))
    (r : Nat) (beta : Score) (color : Int)
    (hf : ∀ (r' : Nat) (a b : Score) (c : Int) (h : Heap g) (s : SearchSt g)
      out, f r' a b c h s = some out → HeapFrame g h out.2.1) :
    ∀ (ms : List g.Move) (alpha value : Score) (bm : Option g.Move)
      (h : Heap g) (s : SearchSt g) out,
      nLoopRef g ctx f r beta color ms alpha value bm h s = some out →
      HeapFrame g h out.2.2.2.1 := by
  intro ms
  induction ms with
  | nil =>
    intro alpha value bm h s out hq
    unfold nLoopRef at hq
    simp only [Option.some.injEq] at hq
    exact hq ▸ heapFrame_refl h
  | cons m rest ih =>
    intro alpha value bm h s out hq
    unfold nLoopRef at hq
    cases hfm : f (h.copy r).1 beta.neg alpha.neg (-color)
        (Heap.pushMove (h.copy r).2 (h.copy r).1 m) s with
    | none =>
      simp only [hfm] at hq
      exact Option.noConfusion hq
    | some res =>
      obtain ⟨cs, h2, s1⟩ := res
      simp only [hfm] at hq
      have h12 : HeapFrame g h h2 :=
        (child_frame h r m).chain (hf _ _ _ _ _ _ _ hfm)
      by_cases hcut : Score.le beta (Score.max alpha
          (if value.lt cs.neg = true then (cs.neg, some m)
            else (value, bm)).1) = true
      · simp only [hcut, if_true, Option.some.injEq] at hq
        exact hq ▸ h12
      · simp only [hcut, Bool.false_eq_true, if_false] at hq
        exact h12.chain (ih _ _ _ h2 s1 out hq)

theorem negamaxCoreRef_frame {g : Game} (ctx : SearchCtx g)
    (f : Nat → Score → Score → Int → Heap g → SearchSt g →
      Option (Score × Heap g × SearchSt g))
    (hf : ∀ (r' : Nat) (a b : Score) (c : Int) (h : Heap g) (s : SearchSt g)
      out, f r' a b c h s = some out → HeapFrame g h out.2.1)
    (depth : Nat) (r : Nat) (fen_key : String)
    (entry? : Option (TTEntry g.Move)) (alpha beta : Score) (color : Int)
    (h : Heap g) (s : SearchSt g) out
    (hq : negamaxCoreRef g ctx f depth r fen_key entry? alpha beta color h s
      = some out) : HeapFrame g h out.2.1 := by
  unfold negamaxCoreRef at hq
  by_cases hd : depth = 0
  · simp only [hd, if_pos rfl] at hq
    exact quiescenceRef_frame ctx _ r alpha beta color h s out hq
  · simp only [hd, if_false] at hq
    by_cases hleg : (g.legalMoves (h.mem r)).isEmpty = true
    · simp only [hleg, if_true] at hq
      split at hq <;>
        · simp only [Option.some.injEq] at hq
          exact hq ▸ heapFrame_refl h
    · simp only [hleg, Bool.false_eq_true, if_false] at hq
      cases hnl : nLoopRef g ctx f r beta color
          (order_moves g ctx (h.mem r) (g.legalMoves (h.mem r))
            (ttSuggestion entry?) s).1 alpha Score.negInf none h
          (order_moves g ctx (h.mem r) (g.legalMoves (h.mem r))
            (ttSuggestion entry?) s).2 with
      | none =>
        simp only [hnl] at hq
        exact Option.noConfusion hq
      | some res =>
        obtain ⟨value, alpha1, bm, h1, s1⟩ := res
        simp only [hnl, Option.some.injEq] at hq
        have := nLoopRef_frame ctx f r beta color hf _ _ _ _ h _ _ hnl
        exact hq ▸ this

theorem negamaxPreRef_frame {g : Game} (ctx : SearchCtx g)
    (f : Nat → Score → Score → Int → Heap g → SearchSt g →
      Option (Score × Heap g × SearchSt g))
    (hf : ∀ (r' : Nat) (a b : Score) (c : Int) (h : Heap g) (s : SearchSt g)
      out, f r' a b c h s = some out → HeapFrame g h out.2.1)
    (depth : Nat) (r : Nat) (alpha beta : Score) (color : Int) (h : Heap g)
    (s : SearchSt g) out
    (hq : negamaxPreRef g ctx f depth r alpha beta color h s = some out) :
    HeapFrame g h out.2.1 := by
  unfold negamaxPreRef at hq
  by_cases hexp : (timeExpired ctx s).1 = true
  · simp only [hexp, if_true, Option.some.injEq] at hq
    exact hq ▸ heapFrame_refl h
  · simp only [eq_false_of_ne_true hexp, Bool.false_eq_true, if_false] at hq
    cases hget : ttGet (timeExpired ctx s).2.tt (g.key (h.mem r)) with
    | none =>
      simp only [hget] at hq
      exact negamaxCoreRef_frame ctx f hf depth r _ _ alpha beta color h _
        out hq
    | some e =>
      simp only [hget] at hq
      by_cases hd : depth ≤ e.depth
      · simp only [hd, if_true] at hq
        cases hnt : e.node_type with
        | EXACT =>
          simp only [hnt, Option.some.injEq] at hq
          exact hq ▸ heapFrame_refl h
        | LOWERBOUND =>
          simp only [hnt] at hq
          by_cases hcut : Score.le beta (Score.max alpha e.score) = true
          · simp only [hcut, if_true, Option.some.injEq] at hq
            exact hq ▸ heapFrame_refl h
          · simp only [hcut, Bool.false_eq_true, if_false] at hq
            exact negamaxCoreRef_frame ctx f hf depth r _ _ _ beta color h _
              out hq
        | UPPERBOUND =>
          simp only [hnt] at hq
          by_cases hcut : Score.le (Score.min beta e.score) alpha = true
          · simp only [hcut, if_true, Option.some.injEq] at hq
            exact hq ▸ heapFrame_refl h
          · simp only [hcut, Bool.false_eq_true, if_false] at hq
            exact negamaxCoreRef_frame ctx f hf depth r _ _ alpha _ color h _
              out hq
      · simp only [hd, if_false] at hq
        exact negamaxCoreRef_frame ctx f hf depth r _ _ alpha beta color h _
          out hq

theorem negamaxRef_frame {g : Game} (ctx : SearchCtx g) :
    ∀ (depth : Nat) (r : Nat) (alpha beta : Score) (color : Int) (h : Heap g)
      (s : SearchSt g) out,
      negamaxRef g ctx depth r alpha beta color h s = some out →
      HeapFrame g h out.2.1 := by
  intro depth
  induction depth with
  | zero =>
    intro r alpha beta color h s out hq
    exact negamaxPreRef_frame ctx _ (fun r' a b c h' s' out' heq =>
      Option.noConfusion heq) 0 r alpha beta color h s out hq
  | succ n ih =>
    intro r alpha beta color h s out hq
    exact negamaxPreRef_frame ctx _ (fun r' a b c h' s' out' heq =>
      ih r' a b c h' s' out' heq) (n + 1) r alpha beta color h s out hq

theorem rLoopRef_frame {g : Game} (ctx : SearchCtx g) (depth : Nat)
    (r : Nat) (beta : Score) (color : Int) :
    ∀ (ms : List g.Move) (alpha bs : Score) (bm : Option g.Move) (h : Heap g)
      (s : SearchSt g) out,
      rLoopRef g ctx depth r beta color ms alpha bs bm h s = some out →
      HeapFrame g h out.2.2.1 := by
  intro ms
  induction ms with
  | nil =>
    intro alpha bs bm h s out hq
    unfold rLoopRef at hq
    simp only [Option.some.injEq] at hq
    exact hq ▸ heapFrame_refl h
  | cons m rest ih =>
    intro alpha bs bm h s out hq
    unfold rLoopRef at hq
    by_cases hexp : (timeExpired ctx s).1 = true
    · simp only [hexp, if_true, Option.some.injEq] at hq
      exact hq ▸ heapFrame_refl h
    · simp only [eq_false_of_ne_true hexp, Bool.false_eq_true, if_false] at hq
      cases hfm : negamaxRef g ctx (depth - 1) (h.copy r).1 beta.neg alpha.neg
          (-color) (Heap.pushMove (h.copy r).2 (h.copy r).1 m)
          (timeExpired ctx s).2 with
      | none =>
        simp only [hfm] at hq
        exact Option.noConfusion hq
      | some res =>
        obtain ⟨cs, h2, s1⟩ := res
        simp only [hfm] at hq
        have h12 : HeapFrame g h h2 := (child_frame h r m).chain
          (negamaxRef_frame ctx (depth - 1) _ _ _ _ _ _ _ hfm)
        by_cases hcut : Score.le beta (Score.max alpha cs.neg) = true
        · simp only [hcut, if_true, Option.some.injEq] at hq
          exact hq ▸ h12
        · simp only [hcut, Bool.false_eq_true, if_false] at hq
          exact h12.chain (ih _ _ _ h2 s1 out hq)

theorem negamax_rootRef_frame {g : Game} (ctx : SearchCtx g) (depth : Nat)
    (r : Nat) (h : Heap g) (s : SearchSt g) out
    (hq : negamax_rootRef g ctx depth r h s = some out) :
    HeapFrame g h out.2.2.1 := by
  unfold negamax_rootRef at hq
  by_cases hleg : (g.legalMoves (h.mem r)).isEmpty = true
  · simp only [hleg, if_true, Option.some.injEq] at hq
    exact hq ▸ heapFrame_refl h
  · simp only [hleg, Bool.false_eq_true, if_false] at hq
    exact rLoopRef_frame ctx depth r Score.posInf _ _ _ _ _ h _ out hq

theorem sbmLoopRef_frame {g : Game} (ctx : SearchCtx g) (r : Nat) :
    ∀ (ds : List Nat) (bm : Option g.Move) (bs : Score) (h : Heap g)
      (s : SearchSt g) out,
      sbmLoopRef g ctx r ds bm bs h s = some out →
      HeapFrame g h out.2.2.1 := by
  intro ds
  induction ds with
  | nil =>
    intro bm bs h s out hq
    unfold sbmLoopRef at hq
    simp only [Option.some.injEq] at hq
    exact hq ▸ heapFrame_refl h
  | cons d rest ih =>
    intro bm bs h s out hq
    unfold sbmLoopRef at hq
    by_cases hexp : (timeExpired ctx s).1 = true
    · simp only [hexp, if_true, Option.some.injEq] at hq
      exact hq ▸ heapFrame_refl h
    · simp only [eq_false_of_ne_true hexp, Bool.false_eq_true, if_false] at hq
      cases hr : negamax_rootRef g ctx d r h (timeExpired ctx s).2 with
      | none =>
        simp only [hr] at hq
        exact Option.noConfusion hq
      | some res =>
        obtain ⟨score, move, h1, s1⟩ := res
        simp only [hr] at hq
        have h01 : HeapFrame g h h1 :=
          negamax_rootRef_frame ctx d r h _ _ hr
        cases move with
        | some m => exact h01.chain (ih _ _ h1 s1 out hq)
        | none => exact h01.chain (ih _ _ h1 s1 out hq)

/-- C9: `search_best_move` and every routine it calls leave the caller's
board object unchanged in the object store: moves are pushed only onto
fresh `Board.copy` clones, so every object alive on entry — in particular
the position argument — holds the same position after the search returns
(and after every `_negamax`, `_quiescence` and root-search call). -/
theorem C9_no_mutation (g : Game) (ctx : SearchCtx g) :
    (∀ (fuel : Nat) (r : Nat) (alpha beta : Score) (color : Int) (h : Heap g)
      (s : SearchSt g) out,
      quiescenceRef g ctx fuel r alpha beta color h s = some out →
      HeapFrame g h out.2.1) ∧
    (∀ (depth : Nat) (r : Nat) (alpha beta : Score) (color : Int) (h : Heap g)
      (s : SearchSt g) out,
      negamaxRef g ctx depth r alpha beta color h s = some out →
      HeapFrame g h out.2.1) ∧
    (∀ (depth : Nat) (r : Nat) (h : Heap g) (s : SearchSt g) out,
      negamax_rootRef g ctx depth r h s = some out →
      HeapFrame g h out.2.2.1) ∧
    (∀ (depth : Nat) (r : Nat) (h : Heap g) (s : SearchSt g) out,
      search_best_move_ref g ctx r depth h s = some out →
      HeapFrame g h out.2.1) := by
  refine ⟨quiescenceRef_frame ctx, negamaxRef_frame ctx,
    fun depth r h s out hq => negamax_rootRef_frame ctx depth r h s out hq,
    ?_⟩
  intro depth r h s out hq
  unfold search_best_move_ref at hq
  cases hl : sbmLoopRef g ctx r (List.range' 1 depth) none
      (if g.turn (h.mem r) then Score.negInf else Score.posInf) h s with
  | none =>
    simp only [hl] at hq
    exact Option.noConfusion hq
  | some res =>
    obtain ⟨bm, bs, h1, s1⟩ := res
    simp only [hl] at hq
    have h01 : HeapFrame g h h1 :=
      sbmLoopRef_frame ctx r _ _ _ h s (bm, bs, h1, s1) hl
    cases bm with
    | some m =>
      simp only [Option.some.injEq] at hq
      exact hq ▸ h01
    | none =>
      by_cases hleg : (g.legalMoves (h1.mem r)).isEmpty = true
      · simp only [hleg, if_true, Option.some.injEq] at hq
        exact hq ▸ h01
      · simp only [hleg, Bool.false_eq_true, if_false,
          Option.some.injEq] at hq
        exact hq ▸ h01

/-- Store holding one live board (reference 0 at `G3` position 0). -/
def heapG3 : Heap G3 := ⟨1, fun _ => (0 : Fin 3)⟩

/-- Concrete store-based search run for the C9 witness. -/
def C9run : Option G3.Move × Heap G3 × SearchSt G3 :=
  (search_best_move_ref G3 (ctxId G3) 0 1 heapG3 (stEmpty G3)).getD
    (none, heapG3, stEmpty G3)

/-- Witness for C9: after the concrete search, the caller's board object
still holds its original position. -/
theorem C9_no_mutation_witness : C9run.2.1.mem 0 = heapG3.mem 0 :=
  ((C9_no_mutation G3 (ctxId G3)).2.2.2 1 0 heapG3 (stEmpty G3) C9run
    rfl).2 0 (by decide)
